import Mathlib

/-!
# Mini compiler front end: lexer and recursive-descent parser

A shallow embedding of `Project6/Project6/Source.cpp`.

* A C++ `string` is a list of characters; a cursor (`position`) is a natural number.
* Every `while` loop is a function recursing on a fuel argument, and the entry points
  (`tokenize`, `number`, `identifier`, `parseTerm`, `parse`) supply the fuel.  A loop that
  runs out of fuel yields `none`.
* In the parser a read `tokens[position]` outside the vector also yields `none`, so a result
  `some r` says that the call returned and that every read was inside the vector.
* A `unique_ptr<ASTNode>` is a value of `ASTNode`, whose constructor `nullptr` is the
  absent node.
* Output on `cerr` is not modelled.
* A `char` is a `Char`; the classes of `<cctype>` are those of the "C" locale, so a
  character outside ASCII belongs to none of them.
-/

namespace MiniCompiler

/-! ## Tokens -/

/-- The enumeration `TokenType`, in the order of the source (`INT` is the zero value). -/
inductive TokenType
  | INT
  | IDENTIFIER
  | NUMBER
  | ASSIGN
  | MULTIPLY
  | DIVIDE
  | PLUS
  | MINUS
  | SEMICOLON
  | END
  deriving DecidableEq, Repr

/-- The struct `Token`. -/
structure Token where
  type : TokenType
  value : String
  deriving DecidableEq, Repr

/-- The value-initialised token `{}` that `consume` returns on a mismatch: the zero
enumerator and the empty string. -/
def Token.placeholder : Token := ⟨TokenType.INT, ""⟩

/-! ## Character classes of `<cctype>` in the "C" locale -/

/-- The predicate `isspace`: space, `\t`, `\n`, `\v`, `\f`, `\r`. -/
def isspace (c : Char) : Bool := c.toNat == 32 || (9 ≤ c.toNat && c.toNat ≤ 13)

/-- The predicate `isdigit`: `0` to `9`. -/
def isdigit (c : Char) : Bool := 48 ≤ c.toNat && c.toNat ≤ 57

/-- The predicate `isalpha`: `A` to `Z` and `a` to `z`. -/
def isalpha (c : Char) : Bool :=
  (65 ≤ c.toNat && c.toNat ≤ 90) || (97 ≤ c.toNat && c.toNat ≤ 122)

/-- The predicate `isalnum`. -/
def isalnum (c : Char) : Bool := isalpha c || isdigit c

/-! ## Lexer -/

/-- The loop of `Lexer::number`:
`while (position < source.size() && isdigit(source[position])) value += source[position++];`
The result is the accumulated text and the cursor after the loop. -/
def numberLoop (source : List Char) : Nat → Nat → String → Option (String × Nat)
  | 0, _, _ => none
  | fuel + 1, position, value =>
    match source[position]? with
    | none => some (value, position)
    | some c =>
      if isdigit c then numberLoop source fuel (position + 1) (value.push c)
      else some (value, position)

/-- The method `Lexer::number`: the token and the cursor after it. -/
def number (source : List Char) (position : Nat) : Option (Token × Nat) :=
  match numberLoop source (source.length + 1) position "" with
  | none => none
  | some (value, p) => some (⟨TokenType.NUMBER, value⟩, p)

/-- The loop of `Lexer::identifier`:
`while (position < source.size() && isalnum(source[position])) value += source[position++];` -/
def identifierLoop (source : List Char) : Nat → Nat → String → Option (String × Nat)
  | 0, _, _ => none
  | fuel + 1, position, value =>
    match source[position]? with
    | none => some (value, position)
    | some c =>
      if isalnum c then identifierLoop source fuel (position + 1) (value.push c)
      else some (value, position)

/-- The method `Lexer::identifier`: the text `"int"` becomes the keyword token. -/
def identifier (source : List Char) (position : Nat) : Option (Token × Nat) :=
  match identifierLoop source (source.length + 1) position "" with
  | none => none
  | some (value, p) =>
    if value = "int" then some (⟨TokenType.INT, value⟩, p)
    else some (⟨TokenType.IDENTIFIER, value⟩, p)

/-- The loop of `Lexer::tokenize`, `while (position < source.size())`, followed by the
final `tokens.push_back({ END, "" })`. -/
def tokenizeLoop (source : List Char) : Nat → Nat → List Token → Option (List Token)
  | 0, _, _ => none
  | fuel + 1, position, tokens =>
    match source[position]? with
    | none => some (tokens ++ [⟨TokenType.END, ""⟩])
    | some current =>
      if isspace current then tokenizeLoop source fuel (position + 1) tokens
      else if current = '+' then
        tokenizeLoop source fuel (position + 1) (tokens ++ [⟨TokenType.PLUS, "+"⟩])
      else if current = '-' then
        tokenizeLoop source fuel (position + 1) (tokens ++ [⟨TokenType.MINUS, "-"⟩])
      else if current = '*' then
        tokenizeLoop source fuel (position + 1) (tokens ++ [⟨TokenType.MULTIPLY, "*"⟩])
      else if current = '/' then
        tokenizeLoop source fuel (position + 1) (tokens ++ [⟨TokenType.DIVIDE, "/"⟩])
      else if current = '=' then
        tokenizeLoop source fuel (position + 1) (tokens ++ [⟨TokenType.ASSIGN, "="⟩])
      else if current = ';' then
        tokenizeLoop source fuel (position + 1) (tokens ++ [⟨TokenType.SEMICOLON, ";"⟩])
      else if isdigit current then
        match number source position with
        | none => none
        | some (t, p) => tokenizeLoop source fuel p (tokens ++ [t])
      else if isalpha current then
        match identifier source position with
        | none => none
        | some (t, p) => tokenizeLoop source fuel p (tokens ++ [t])
      else tokenizeLoop source fuel (position + 1) tokens

/-- The method `Lexer::tokenize` of a lexer constructed on `source` (cursor 0). -/
def tokenize (source : String) : Option (List Token) :=
  tokenizeLoop source.data (source.length + 1) 0 []

/-! ## Syntax tree -/

/-- A `unique_ptr<ASTNode>`: either `nullptr` or one of the five node structs.  The
pointers to `IdentifierNode` and `AssignmentNode` held by `AssignmentNode` and
`DeclarationNode` are embedded in the same type. -/
inductive ASTNode
  | nullptr
  | NumberNode (value : String)
  | IdentifierNode (name : String)
  | BinaryOperationNode (op : String) (left right : ASTNode)
  | AssignmentNode (identifier expression : ASTNode)
  | DeclarationNode (type : String) (assignment : ASTNode)
  deriving DecidableEq, Repr

/-- The test `if (stmt)` on a pointer. -/
def ASTNode.isNull : ASTNode → Bool
  | ASTNode.nullptr => true
  | _ => false

/-! ## Parser -/

/-- The method `Parser::peek`: the read `tokens[position]`. -/
def peek (tokens : List Token) (position : Nat) : Option Token := tokens[position]?

/-- The method `Parser::previous`: the read `tokens[position - 1]`; at cursor 0 the unsigned
index wraps around and the read is outside the vector. -/
def previous (tokens : List Token) (position : Nat) : Option Token :=
  if position = 0 then none else tokens[position - 1]?

/-- The method `Parser::isAtEnd`. -/
def isAtEnd (tokens : List Token) (position : Nat) : Option Bool :=
  match peek tokens position with
  | none => none
  | some t => some (t.type == TokenType.END)

/-- The method `Parser::check`. -/
def check (tokens : List Token) (position : Nat) (type : TokenType) : Option Bool :=
  match isAtEnd tokens position with
  | none => none
  | some true => some false
  | some false =>
    match peek tokens position with
    | none => none
    | some t => some (t.type == type)

/-- The method `Parser::advance`: the token returned and the new cursor. -/
def advance (tokens : List Token) (position : Nat) : Option (Token × Nat) :=
  match isAtEnd tokens position with
  | none => none
  | some e =>
    let p := if e then position else position + 1
    match previous tokens p with
    | none => none
    | some t => some (t, p)

/-- The method `Parser::match`: the answer and the new cursor. -/
def matchType (tokens : List Token) (position : Nat) (type : TokenType) :
    Option (Bool × Nat) :=
  match check tokens position type with
  | none => none
  | some true =>
    match advance tokens position with
    | none => none
    | some (_, p) => some (true, p)
  | some false => some (false, position)

/-- The method `Parser::consume`: the token returned and the new cursor. -/
def consume (tokens : List Token) (position : Nat) (type : TokenType) :
    Option (Token × Nat) :=
  match check tokens position type with
  | none => none
  | some true => advance tokens position
  | some false => some (Token.placeholder, position)

/-- The method `Parser::parseFactor`. -/
def parseFactor (tokens : List Token) (position : Nat) : Option (ASTNode × Nat) :=
  match matchType tokens position TokenType.NUMBER with
  | none => none
  | some (true, p) =>
    match previous tokens p with
    | none => none
    | some t => some (ASTNode.NumberNode t.value, p)
  | some (false, p) =>
    match matchType tokens p TokenType.IDENTIFIER with
    | none => none
    | some (true, q) =>
      match previous tokens q with
      | none => none
      | some t => some (ASTNode.IdentifierNode t.value, q)
    | some (false, q) =>
      match peek tokens q with
      | none => none
      | some _ => some (ASTNode.nullptr, q)

/-- The loop condition of `Parser::parseTerm`,
`match(MULTIPLY) || match(DIVIDE) || match(PLUS) || match(MINUS)`, evaluated left to right
with short circuit. -/
def matchOperator (tokens : List Token) (position : Nat) : Option (Bool × Nat) :=
  match matchType tokens position TokenType.MULTIPLY with
  | none => none
  | some (true, p) => some (true, p)
  | some (false, p) =>
    match matchType tokens p TokenType.DIVIDE with
    | none => none
    | some (true, q) => some (true, q)
    | some (false, q) =>
      match matchType tokens q TokenType.PLUS with
      | none => none
      | some (true, r) => some (true, r)
      | some (false, r) => matchType tokens r TokenType.MINUS

/-- The `while` loop of `Parser::parseTerm`, started with the node built so far. -/
def parseTermLoop (tokens : List Token) : Nat → Nat → ASTNode → Option (ASTNode × Nat)
  | 0, _, _ => none
  | fuel + 1, position, node =>
    match matchOperator tokens position with
    | none => none
    | some (false, p) => some (node, p)
    | some (true, p) =>
      match previous tokens p with
      | none => none
      | some op =>
        match parseFactor tokens p with
        | none => none
        | some (right, q) =>
          parseTermLoop tokens fuel q (ASTNode.BinaryOperationNode op.value node right)

/-- The method `Parser::parseTerm`. -/
def parseTerm (tokens : List Token) (position : Nat) : Option (ASTNode × Nat) :=
  match parseFactor tokens position with
  | none => none
  | some (node, p) => parseTermLoop tokens (tokens.length + 1) p node

/-- The method `Parser::parseExpression`. -/
def parseExpression (tokens : List Token) (position : Nat) : Option (ASTNode × Nat) :=
  parseTerm tokens position

/-- The method `Parser::parseDeclaration`. -/
def parseDeclaration (tokens : List Token) (position : Nat) : Option (ASTNode × Nat) :=
  match matchType tokens position TokenType.INT with
  | none => none
  | some (false, p) => some (ASTNode.nullptr, p)
  | some (true, p) =>
    match previous tokens p with
    | none => none
    | some type =>
      match consume tokens p TokenType.IDENTIFIER with
      | none => none
      | some (name, p1) =>
        match consume tokens p1 TokenType.ASSIGN with
        | none => none
        | some (_, p2) =>
          match parseExpression tokens p2 with
          | none => none
          | some (expression, p3) =>
            match consume tokens p3 TokenType.SEMICOLON with
            | none => none
            | some (_, p4) =>
              some (ASTNode.DeclarationNode type.value
                (ASTNode.AssignmentNode (ASTNode.IdentifierNode name.value) expression), p4)

/-- The `while (!isAtEnd())` loop of `Parser::parse`: the statements returned and the
cursor at the end. -/
def parseLoop (tokens : List Token) : Nat → Nat → List ASTNode → Option (List ASTNode × Nat)
  | 0, _, _ => none
  | fuel + 1, position, statements =>
    match isAtEnd tokens position with
    | none => none
    | some true => some (statements, position)
    | some false =>
      match parseDeclaration tokens position with
      | none => none
      | some (stmt, p) =>
        if stmt.isNull then some (statements, p)
        else parseLoop tokens fuel p (statements ++ [stmt])

/-- The method `Parser::parse` of a parser constructed on `tokens` (cursor 0). -/
def parse (tokens : List Token) : Option (List ASTNode) :=
  match parseLoop tokens (tokens.length + 1) 0 [] with
  | none => none
  | some (statements, _) => some statements

/-- The pipeline of `main`: tokenize the source, then parse the tokens. -/
def compile (source : String) : Option (List ASTNode) :=
  match tokenize source with
  | none => none
  | some tokens => parse tokens

/-! ## Definitions used by the statements and the proofs -/

/-- The token that `Lexer::identifier` builds from the text it has read. -/
def wordToken (value : String) : Token :=
  if value = "int" then ⟨TokenType.INT, value⟩ else ⟨TokenType.IDENTIFIER, value⟩

/-- The tokens that the loop of `Lexer::tokenize` appends, as a function of the unread
text `source[position..]`.  It is the description of the loop used in the proofs. -/
def scan : List Char → List Token
  | [] => []
  | c :: cs =>
    if isspace c then scan cs
    else if c = '+' then ⟨TokenType.PLUS, "+"⟩ :: scan cs
    else if c = '-' then ⟨TokenType.MINUS, "-"⟩ :: scan cs
    else if c = '*' then ⟨TokenType.MULTIPLY, "*"⟩ :: scan cs
    else if c = '/' then ⟨TokenType.DIVIDE, "/"⟩ :: scan cs
    else if c = '=' then ⟨TokenType.ASSIGN, "="⟩ :: scan cs
    else if c = ';' then ⟨TokenType.SEMICOLON, ";"⟩ :: scan cs
    else if isdigit c then
      ⟨TokenType.NUMBER, String.mk (c :: cs.takeWhile isdigit)⟩ :: scan (cs.dropWhile isdigit)
    else if isalpha c then
      wordToken (String.mk (c :: cs.takeWhile isalnum)) :: scan (cs.dropWhile isalnum)
    else scan cs
termination_by l => l.length
decreasing_by
  all_goals simp_wf
  all_goals first
    | omega
    | exact Nat.lt_succ_of_le (List.dropWhile_suffix _).length_le

/-- An identifier text: a letter followed by letters and digits. -/
def isIdentifierText (s : String) : Bool :=
  match s.data with
  | [] => false
  | c :: cs => isalpha c && cs.all isalnum

/-- A number text: a non-empty run of decimal digits. -/
def isNumberText (s : String) : Bool := !s.data.isEmpty && s.data.all isdigit

/-- The invariant of a token that the lexer returns: the text determines the kind
`INT`, and every other kind constrains the text. -/
def Token.Invariant (t : Token) : Prop :=
  (t.type = TokenType.INT ↔ t.value = "int") ∧
  (t.type = TokenType.IDENTIFIER → isIdentifierText t.value = true ∧ t.value ≠ "int") ∧
  (t.type = TokenType.NUMBER → isNumberText t.value = true) ∧
  (t.type = TokenType.PLUS → t.value = "+") ∧
  (t.type = TokenType.MINUS → t.value = "-") ∧
  (t.type = TokenType.MULTIPLY → t.value = "*") ∧
  (t.type = TokenType.DIVIDE → t.value = "/") ∧
  (t.type = TokenType.ASSIGN → t.value = "=") ∧
  (t.type = TokenType.SEMICOLON → t.value = ";")

instance (t : Token) : Decidable t.Invariant := by
  unfold Token.Invariant
  infer_instance

/-- The characters for which `tokenize` takes its last branch: not white space, not one of
the six punctuation characters, not a digit and not a letter. -/
def isUnrecognized (c : Char) : Bool :=
  !isspace c && !(c == '+') && !(c == '-') && !(c == '*') && !(c == '/') && !(c == '=') &&
    !(c == ';') && !isdigit c && !isalpha c

/-- The leaf that `parseFactor` builds from a `NUMBER` or `IDENTIFIER` token. -/
def leaf (t : Token) : ASTNode :=
  if t.type = TokenType.NUMBER then ASTNode.NumberNode t.value
  else ASTNode.IdentifierNode t.value

/-- The tokens that `parseFactor` accepts. -/
def isFactor (t : Token) : Bool :=
  t.type == TokenType.NUMBER || t.type == TokenType.IDENTIFIER

/-- The tokens that continue the loop of `parseTerm`. -/
def isOperator (t : Token) : Bool :=
  t.type == TokenType.MULTIPLY || t.type == TokenType.DIVIDE ||
    t.type == TokenType.PLUS || t.type == TokenType.MINUS

/-- The tokens of `(op f)*`, given as the list of the pairs `(op, f)`. -/
def operands : List (Token × Token) → List Token
  | [] => []
  | (op, f) :: rest => op :: f :: operands rest

/-- The left fold of the pairs `(op, f)` onto a node:
`BinaryOperation(opn, ... BinaryOperation(op1, node, leaf f1) ..., leaf fn)`. -/
def foldOperands (node : ASTNode) (rest : List (Token × Token)) : ASTNode :=
  rest.foldl (fun acc x => ASTNode.BinaryOperationNode x.1.value acc (leaf x.2)) node

/-- The left fold of the expression `f0 op1 f1 ... opn fn`. -/
def leftFold (f0 : Token) (rest : List (Token × Token)) : ASTNode :=
  foldOperands (leaf f0) rest

/-- Every pair is an operator token followed by a factor token. -/
def wellFormedOperands (rest : List (Token × Token)) : Bool :=
  rest.all fun x => isOperator x.1 && isFactor x.2

/-- A declaration block `INT, IDENTIFIER n, ASSIGN, f0 (op f)*, SEMICOLON`, by its
tokens. -/
structure DeclarationBlock where
  keyword : Token
  name : Token
  assign : Token
  first : Token
  rest : List (Token × Token)
  semicolon : Token

/-- The kinds of the tokens of a well-formed declaration block. -/
def DeclarationBlock.wellFormed (b : DeclarationBlock) : Bool :=
  b.keyword.type == TokenType.INT && b.name.type == TokenType.IDENTIFIER &&
    b.assign.type == TokenType.ASSIGN && isFactor b.first && wellFormedOperands b.rest &&
    b.semicolon.type == TokenType.SEMICOLON

/-- The token sequence of a declaration block. -/
def DeclarationBlock.tokens (b : DeclarationBlock) : List Token :=
  b.keyword :: b.name :: b.assign :: b.first :: (operands b.rest ++ [b.semicolon])

/-- The `Declaration` node of a declaration block: the text of its `INT` token, the name of
its identifier and the left fold of its expression. -/
def DeclarationBlock.node (b : DeclarationBlock) : ASTNode :=
  ASTNode.DeclarationNode b.keyword.value
    (ASTNode.AssignmentNode (ASTNode.IdentifierNode b.name.value) (leftFold b.first b.rest))

/-- The token sequence of consecutive declaration blocks. -/
def blocksTokens : List DeclarationBlock → List Token
  | [] => []
  | b :: bs => b.tokens ++ blocksTokens bs

/-- The token sequence contains an `END` token. -/
def HasEnd (l : List Token) : Prop := ∃ t ∈ l, t.type = TokenType.END

/-- A rule that started on the unread tokens `l` has consumed `k` of them: none of the
`k` tokens is `END`, and an `END` token is still unread. -/
def Consumed (l : List Token) (k : Nat) : Prop :=
  HasEnd (l.drop k) ∧ ∀ t ∈ l.take k, t.type ≠ TokenType.END

/-- The block without its `IDENTIFIER` token. -/
def DeclarationBlock.withoutName (b : DeclarationBlock) : List Token :=
  b.keyword :: b.assign :: b.first :: (operands b.rest ++ [b.semicolon])

/-- The block without its `ASSIGN` token. -/
def DeclarationBlock.withoutAssign (b : DeclarationBlock) : List Token :=
  b.keyword :: b.name :: b.first :: (operands b.rest ++ [b.semicolon])

/-- The block without its `SEMICOLON` token. -/
def DeclarationBlock.withoutSemicolon (b : DeclarationBlock) : List Token :=
  b.keyword :: b.name :: b.assign :: b.first :: operands b.rest

/-- The declaration of the block with the empty text of the placeholder token as the
name of its target. -/
def DeclarationBlock.nodeWithoutName (b : DeclarationBlock) : ASTNode :=
  ASTNode.DeclarationNode b.keyword.value
    (ASTNode.AssignmentNode (ASTNode.IdentifierNode "") (leftFold b.first b.rest))

/-- The node is a `Number` leaf, an `Identifier` leaf or absent. -/
def ASTNode.isLeafOrNull : ASTNode → Bool
  | ASTNode.nullptr => true
  | ASTNode.NumberNode _ => true
  | ASTNode.IdentifierNode _ => true
  | _ => false

/-- In every `BinaryOperation` node of the tree the right child is a leaf or absent; the
left child may again be a `BinaryOperation`. -/
def ASTNode.leftDeep : ASTNode → Bool
  | ASTNode.BinaryOperationNode _ left right => left.leftDeep && right.isLeafOrNull
  | ASTNode.AssignmentNode identifier expression => identifier.leftDeep && expression.leftDeep
  | ASTNode.DeclarationNode _ assignment => assignment.leftDeep
  | _ => true

/-- The data model of an expression: a leaf, or a `BinaryOperation` whose operator text is
one of `+ - * /` and whose two children are present expressions. -/
def ASTNode.isExpression : ASTNode → Bool
  | ASTNode.NumberNode _ => true
  | ASTNode.IdentifierNode _ => true
  | ASTNode.BinaryOperationNode op left right =>
    (op == "+" || op == "-" || op == "*" || op == "/") &&
      left.isExpression && right.isExpression
  | _ => false

/-- The data model of a top-level tree: a `Declaration` that owns an `Assignment` with an
`Identifier` target and a present expression. -/
def ASTNode.satisfiesDataModel : ASTNode → Bool
  | ASTNode.DeclarationNode _ (ASTNode.AssignmentNode (ASTNode.IdentifierNode _) expression) =>
    expression.isExpression
  | _ => false

/-- The node is a `Declaration` node. -/
def ASTNode.isDeclaration : ASTNode → Bool
  | ASTNode.DeclarationNode _ _ => true
  | _ => false

/-- The type name held by a `Declaration` node. -/
def ASTNode.typeName : ASTNode → Option String
  | ASTNode.DeclarationNode type _ => some type
  | _ => none

/-- The cursor moved from `p` to `q = p + k` and none of the `k` tokens passed is `INT`. -/
def Skips (tokens : List Token) (p q : Nat) : Prop :=
  ∃ k, q = p + k ∧ ∀ x ∈ (tokens.drop p).take k, x.type ≠ TokenType.INT

/-- The number of `INT` tokens of a token sequence. -/
def countINT (l : List Token) : Nat := l.countP fun t => t.type == TokenType.INT

/-- The tokens before the first `END` token. -/
def beforeEnd (l : List Token) : List Token := l.takeWhile fun t => t.type != TokenType.END

/-- The texts of the tokens, concatenated in order. -/
def concatTexts : List Token → String
  | [] => ""
  | t :: ts => t.value ++ concatTexts ts

/-- The characters that are neither white space nor unrecognized. -/
def isKept (c : Char) : Bool := !isspace c && !isUnrecognized c

/-- The source with every white-space character and every unrecognized character
removed. -/
def recognizedText (source : String) : String :=
  String.mk (source.data.filter isKept)

/-! ## Cursor facts -/

theorem getElem?_of_drop_cons {α : Type} {l : List α} {p : Nat} {a : α} {r : List α}
    (h : l.drop p = a :: r) : l[p]? = some a := by
  have h1 := List.head?_drop l p
  rw [h] at h1
  simpa using h1.symm

theorem drop_succ_of_drop_cons {α : Type} {l : List α} {p : Nat} {a : α} {r : List α}
    (h : l.drop p = a :: r) : l.drop (p + 1) = r := by
  have h1 : l.drop (p + 1) = (l.drop p).drop 1 := by
    rw [List.drop_drop, Nat.add_comm]
  rw [h1, h]
  rfl

theorem getElem?_of_drop_nil {α : Type} {l : List α} {p : Nat}
    (h : l.drop p = []) : l[p]? = none := by
  have h1 := List.head?_drop l p
  rw [h] at h1
  simpa using h1.symm

theorem drop_add_of_drop {α : Type} {l m : List α} {p : Nat} (k : Nat)
    (h : l.drop p = m) : l.drop (p + k) = m.drop k := by
  rw [← h, List.drop_drop, Nat.add_comm]

theorem length_le_of_drop {α : Type} {l m : List α} {p : Nat}
    (h : l.drop p = m) : m.length ≤ l.length := by
  rw [← h, List.length_drop]
  omega

theorem drop_length_takeWhile {α : Type} (q : α → Bool) (l : List α) :
    l.drop (l.takeWhile q).length = l.dropWhile q := by
  induction l with
  | nil => rfl
  | cons a l ih =>
    by_cases h : q a = true
    · simp [List.takeWhile_cons, List.dropWhile_cons, h, ih]
    · simp [List.takeWhile_cons, List.dropWhile_cons, h]

/-! ## The loops of the lexer -/

theorem numberLoop_spec (source : List Char) :
    ∀ (l : List Char) (fuel position : Nat) (value : String),
      source.drop position = l → (l.takeWhile isdigit).length < fuel →
      numberLoop source fuel position value =
        some (⟨value.data ++ l.takeWhile isdigit⟩,
          position + (l.takeWhile isdigit).length) := by
  intro l
  induction l with
  | nil =>
    intro fuel position value hd hf
    cases fuel with
    | zero => simp at hf
    | succ fuel => simp [numberLoop, getElem?_of_drop_nil hd]
  | cons c cs ih =>
    intro fuel position value hd hf
    cases fuel with
    | zero => simp at hf
    | succ fuel =>
      by_cases hc : isdigit c = true
      · simp only [List.takeWhile_cons, hc, if_true, List.length_cons] at hf ⊢
        rw [numberLoop, getElem?_of_drop_cons hd]
        simp only [hc, if_true]
        rw [ih fuel (position + 1) (value.push c) (drop_succ_of_drop_cons hd) (by omega)]
        simp [String.push, Nat.add_comm, Nat.add_left_comm]
      · simp [numberLoop, getElem?_of_drop_cons hd, hc, List.takeWhile_cons]

theorem identifierLoop_spec (source : List Char) :
    ∀ (l : List Char) (fuel position : Nat) (value : String),
      source.drop position = l → (l.takeWhile isalnum).length < fuel →
      identifierLoop source fuel position value =
        some (⟨value.data ++ l.takeWhile isalnum⟩,
          position + (l.takeWhile isalnum).length) := by
  intro l
  induction l with
  | nil =>
    intro fuel position value hd hf
    cases fuel with
    | zero => simp at hf
    | succ fuel => simp [identifierLoop, getElem?_of_drop_nil hd]
  | cons c cs ih =>
    intro fuel position value hd hf
    cases fuel with
    | zero => simp at hf
    | succ fuel =>
      by_cases hc : isalnum c = true
      · simp only [List.takeWhile_cons, hc, if_true, List.length_cons] at hf ⊢
        rw [identifierLoop, getElem?_of_drop_cons hd]
        simp only [hc, if_true]
        rw [ih fuel (position + 1) (value.push c) (drop_succ_of_drop_cons hd) (by omega)]
        simp [String.push, Nat.add_comm, Nat.add_left_comm]
      · simp [identifierLoop, getElem?_of_drop_cons hd, hc, List.takeWhile_cons]

theorem length_takeWhile_lt_of_drop {source l : List Char} {position : Nat} (q : Char → Bool)
    (hd : source.drop position = l) : (l.takeWhile q).length < source.length + 1 := by
  have h1 : (l.takeWhile q).length ≤ l.length := (List.takeWhile_sublist q).length_le
  have h2 := length_le_of_drop hd
  omega

theorem number_spec {source l : List Char} {position : Nat} (hd : source.drop position = l) :
    number source position =
      some (⟨TokenType.NUMBER, ⟨l.takeWhile isdigit⟩⟩,
        position + (l.takeWhile isdigit).length) := by
  rw [number, numberLoop_spec source l _ position "" hd (length_takeWhile_lt_of_drop _ hd)]
  simp

theorem identifier_spec {source l : List Char} {position : Nat}
    (hd : source.drop position = l) :
    identifier source position =
      some (wordToken ⟨l.takeWhile isalnum⟩, position + (l.takeWhile isalnum).length) := by
  rw [identifier,
    identifierLoop_spec source l _ position "" hd (length_takeWhile_lt_of_drop _ hd)]
  have he : ("" : String).data = [] := rfl
  simp only [he, List.nil_append, wordToken]
  split <;> rfl

theorem scan_cons (c : Char) (cs : List Char) :
    scan (c :: cs) =
      if isspace c then scan cs
      else if c = '+' then ⟨TokenType.PLUS, "+"⟩ :: scan cs
      else if c = '-' then ⟨TokenType.MINUS, "-"⟩ :: scan cs
      else if c = '*' then ⟨TokenType.MULTIPLY, "*"⟩ :: scan cs
      else if c = '/' then ⟨TokenType.DIVIDE, "/"⟩ :: scan cs
      else if c = '=' then ⟨TokenType.ASSIGN, "="⟩ :: scan cs
      else if c = ';' then ⟨TokenType.SEMICOLON, ";"⟩ :: scan cs
      else if isdigit c then
        ⟨TokenType.NUMBER, String.mk (c :: cs.takeWhile isdigit)⟩ :: scan (cs.dropWhile isdigit)
      else if isalpha c then
        wordToken (String.mk (c :: cs.takeWhile isalnum)) :: scan (cs.dropWhile isalnum)
      else scan cs := by
  rw [scan]

theorem scan_nil : scan [] = [] := by
  rw [scan]

theorem isalnum_of_isalpha {c : Char} (h : isalpha c = true) : isalnum c = true := by
  simp [isalnum, h]

/-- With fuel above the length of the unread text, the loop of `tokenize` returns the
tokens it had, the tokens of the unread text, and the sentinel. -/
theorem tokenizeLoop_scan (source : List Char) :
    ∀ (n : Nat) (l : List Char), l.length ≤ n →
      ∀ (fuel position : Nat) (tokens : List Token),
        source.drop position = l → l.length < fuel →
        tokenizeLoop source fuel position tokens =
          some (tokens ++ scan l ++ [⟨TokenType.END, ""⟩]) := by
  intro n
  induction n with
  | zero =>
    intro l hl fuel position tokens hd hf
    have : l = [] := List.length_eq_zero.mp (Nat.le_zero.mp hl)
    subst this
    cases fuel with
    | zero => simp at hf
    | succ fuel => simp [tokenizeLoop, getElem?_of_drop_nil hd, scan_nil]
  | succ n ih =>
    intro l hl fuel position tokens hd hf
    cases fuel with
    | zero => simp at hf
    | succ fuel =>
      cases l with
      | nil => simp [tokenizeLoop, getElem?_of_drop_nil hd, scan_nil]
      | cons c cs =>
        have hcs : cs.length ≤ n := by simpa using hl
        have hfc : cs.length < fuel := by simpa using hf
        have h1 := drop_succ_of_drop_cons hd
        have step : ∀ ts, tokenizeLoop source fuel (position + 1) ts =
            some (ts ++ scan cs ++ [⟨TokenType.END, ""⟩]) :=
          fun ts => ih cs hcs fuel (position + 1) ts h1 hfc
        rw [tokenizeLoop, getElem?_of_drop_cons hd, scan_cons]
        simp only []
        by_cases hsp : isspace c = true
        · simp only [hsp, if_true, step]
        simp only [hsp, if_false, Bool.false_eq_true]
        by_cases hp : c = '+'
        · simp [hp, step]
        simp only [hp, if_false]
        by_cases hm : c = '-'
        · simp [hm, step]
        simp only [hm, if_false]
        by_cases hmu : c = '*'
        · simp [hmu, step]
        simp only [hmu, if_false]
        by_cases hdv : c = '/'
        · simp [hdv, step]
        simp only [hdv, if_false]
        by_cases has : c = '='
        · simp [has, step]
        simp only [has, if_false]
        by_cases hse : c = ';'
        · simp [hse, step]
        simp only [hse, if_false]
        by_cases hdg : isdigit c = true
        · simp only [hdg, if_true]
          rw [number_spec hd]
          simp only [List.takeWhile_cons, hdg, if_true, List.length_cons]
          have h2 : source.drop (position + ((cs.takeWhile isdigit).length + 1)) =
              cs.dropWhile isdigit := by
            rw [drop_add_of_drop _ hd, List.drop_succ_cons, drop_length_takeWhile]
          have h3 : (cs.dropWhile isdigit).length ≤ cs.length :=
            (List.dropWhile_suffix _).length_le
          rw [ih _ (by omega) fuel _ _ h2 (by omega)]
          simp
        simp only [hdg, if_false, Bool.false_eq_true]
        by_cases hal : isalpha c = true
        · simp only [hal, if_true]
          rw [identifier_spec hd]
          simp only [List.takeWhile_cons, isalnum_of_isalpha hal, if_true, List.length_cons]
          have h2 : source.drop (position + ((cs.takeWhile isalnum).length + 1)) =
              cs.dropWhile isalnum := by
            rw [drop_add_of_drop _ hd, List.drop_succ_cons, drop_length_takeWhile]
          have h3 : (cs.dropWhile isalnum).length ≤ cs.length :=
            (List.dropWhile_suffix _).length_le
          rw [ih _ (by omega) fuel _ _ h2 (by omega)]
          simp
        simp only [hal, if_false, Bool.false_eq_true, step]

/-- The lexer returns on every source: the result is the tokens of the text followed by
the sentinel. -/
theorem tokenize_eq_scan (source : String) :
    tokenize source = some (scan source.data ++ [⟨TokenType.END, ""⟩]) := by
  have h := tokenizeLoop_scan source.data source.data.length source.data (Nat.le_refl _)
    (source.length + 1) 0 [] rfl (Nat.lt_succ_self _)
  simpa [tokenize] using h

/-! ## Character classes -/

theorem isspace_toNat {c : Char} (h : isspace c = true) :
    c.toNat = 32 ∨ (9 ≤ c.toNat ∧ c.toNat ≤ 13) := by
  simpa [isspace] using h

theorem isdigit_toNat {c : Char} (h : isdigit c = true) : 48 ≤ c.toNat ∧ c.toNat ≤ 57 := by
  simpa [isdigit] using h

theorem isalpha_toNat {c : Char} (h : isalpha c = true) :
    (65 ≤ c.toNat ∧ c.toNat ≤ 90) ∨ (97 ≤ c.toNat ∧ c.toNat ≤ 122) := by
  simpa [isalpha] using h

theorem isalnum_of_isdigit {c : Char} (h : isdigit c = true) : isalnum c = true := by
  simp [isalnum, h]

theorem isdigit_not_isspace {c : Char} (h : isdigit c = true) : isspace c = false := by
  have h1 := isdigit_toNat h
  cases hs : isspace c with
  | false => rfl
  | true => have h2 := isspace_toNat hs; omega

theorem isalpha_not_isspace {c : Char} (h : isalpha c = true) : isspace c = false := by
  have h1 := isalpha_toNat h
  cases hs : isspace c with
  | false => rfl
  | true => have h2 := isspace_toNat hs; omega

theorem isalpha_not_isdigit {c : Char} (h : isalpha c = true) : isdigit c = false := by
  have h1 := isalpha_toNat h
  cases hs : isdigit c with
  | false => rfl
  | true => have h2 := isdigit_toNat hs; omega

/-- A digit is none of the six punctuation characters. -/
theorem isdigit_not_punct {c : Char} (h : isdigit c = true) :
    c ≠ '+' ∧ c ≠ '-' ∧ c ≠ '*' ∧ c ≠ '/' ∧ c ≠ '=' ∧ c ≠ ';' := by
  refine ⟨?_, ?_, ?_, ?_, ?_, ?_⟩ <;> (rintro rfl; revert h; decide)

/-- A letter is none of the six punctuation characters. -/
theorem isalpha_not_punct {c : Char} (h : isalpha c = true) :
    c ≠ '+' ∧ c ≠ '-' ∧ c ≠ '*' ∧ c ≠ '/' ∧ c ≠ '=' ∧ c ≠ ';' := by
  refine ⟨?_, ?_, ?_, ?_, ?_, ?_⟩ <;> (rintro rfl; revert h; decide)

/-- A white-space character is none of the six punctuation characters. -/
theorem isspace_not_punct {c : Char} (h : isspace c = true) :
    c ≠ '+' ∧ c ≠ '-' ∧ c ≠ '*' ∧ c ≠ '/' ∧ c ≠ '=' ∧ c ≠ ';' := by
  refine ⟨?_, ?_, ?_, ?_, ?_, ?_⟩ <;> (rintro rfl; revert h; decide)

/-! ## The tokens of the unread text -/

theorem scan_digit (c : Char) (cs : List Char) (h : isdigit c = true) :
    scan (c :: cs) =
      ⟨TokenType.NUMBER, String.mk (c :: cs.takeWhile isdigit)⟩ ::
        scan (cs.dropWhile isdigit) := by
  obtain ⟨h1, h2, h3, h4, h5, h6⟩ := isdigit_not_punct h
  rw [scan_cons]
  simp [isdigit_not_isspace h, h1, h2, h3, h4, h5, h6, h]

theorem scan_alpha (c : Char) (cs : List Char) (h : isalpha c = true) :
    scan (c :: cs) =
      wordToken (String.mk (c :: cs.takeWhile isalnum)) :: scan (cs.dropWhile isalnum) := by
  obtain ⟨h1, h2, h3, h4, h5, h6⟩ := isalpha_not_punct h
  rw [scan_cons]
  simp [isalpha_not_isspace h, h1, h2, h3, h4, h5, h6, h, isalpha_not_isdigit h]

theorem scan_space (c : Char) (cs : List Char) (h : isspace c = true) :
    scan (c :: cs) = scan cs := by
  rw [scan_cons]
  simp [h]

/-- A property of the tokens that the lexer can build holds for every token of the
unread text. -/
theorem scan_forall (Q : Token → Prop)
    (hplus : Q ⟨TokenType.PLUS, "+"⟩) (hminus : Q ⟨TokenType.MINUS, "-"⟩)
    (hmul : Q ⟨TokenType.MULTIPLY, "*"⟩) (hdiv : Q ⟨TokenType.DIVIDE, "/"⟩)
    (hassign : Q ⟨TokenType.ASSIGN, "="⟩) (hsemi : Q ⟨TokenType.SEMICOLON, ";"⟩)
    (hnum : ∀ c cs, isdigit c = true → (∀ x ∈ cs, isdigit x = true) →
      Q ⟨TokenType.NUMBER, String.mk (c :: cs)⟩)
    (hword : ∀ c cs, isalpha c = true → (∀ x ∈ cs, isalnum x = true) →
      Q (wordToken (String.mk (c :: cs)))) :
    ∀ (n : Nat) (l : List Char), l.length ≤ n → ∀ t ∈ scan l, Q t := by
  intro n
  induction n with
  | zero =>
    intro l hl t ht
    have : l = [] := List.length_eq_zero.mp (Nat.le_zero.mp hl)
    subst this
    simp [scan_nil] at ht
  | succ n ih =>
    intro l hl t ht
    cases l with
    | nil => simp [scan_nil] at ht
    | cons c cs =>
      have hcs : cs.length ≤ n := by simpa using hl
      have tail : ∀ u ∈ scan cs, Q u := ih cs hcs
      rw [scan_cons] at ht
      split at ht
      · exact tail t ht
      split at ht
      · rcases List.mem_cons.mp ht with rfl | h
        · exact hplus
        · exact tail t h
      split at ht
      · rcases List.mem_cons.mp ht with rfl | h
        · exact hminus
        · exact tail t h
      split at ht
      · rcases List.mem_cons.mp ht with rfl | h
        · exact hmul
        · exact tail t h
      split at ht
      · rcases List.mem_cons.mp ht with rfl | h
        · exact hdiv
        · exact tail t h
      split at ht
      · rcases List.mem_cons.mp ht with rfl | h
        · exact hassign
        · exact tail t h
      split at ht
      · rcases List.mem_cons.mp ht with rfl | h
        · exact hsemi
        · exact tail t h
      split at ht
      · rename_i hdg
        rcases List.mem_cons.mp ht with rfl | h
        · exact hnum c _ hdg (fun x hx => (List.mem_takeWhile_imp hx))
        · exact ih _ (Nat.le_trans (List.dropWhile_suffix _).length_le hcs) t h
      split at ht
      · rename_i hal
        rcases List.mem_cons.mp ht with rfl | h
        · exact hword c _ hal (fun x hx => (List.mem_takeWhile_imp hx))
        · exact ih _ (Nat.le_trans (List.dropWhile_suffix _).length_le hcs) t h
      · exact tail t ht

theorem wordToken_type (value : String) :
    (wordToken value).type = TokenType.INT ∨ (wordToken value).type = TokenType.IDENTIFIER := by
  unfold wordToken
  split
  · exact Or.inl rfl
  · exact Or.inr rfl

theorem wordToken_value (value : String) : (wordToken value).value = value := by
  unfold wordToken
  split <;> rfl

theorem wordToken_type_INT_iff (value : String) :
    (wordToken value).type = TokenType.INT ↔ value = "int" := by
  unfold wordToken
  split
  · simpa
  · simpa

theorem scan_no_END (l : List Char) : ∀ t ∈ scan l, t.type ≠ TokenType.END := by
  refine scan_forall (fun t => t.type ≠ TokenType.END) ?_ ?_ ?_ ?_ ?_ ?_ ?_ ?_
    l.length l (Nat.le_refl _)
  all_goals first
    | (intro h; exact TokenType.noConfusion h)
    | skip
  · intro c cs _ _ h
    exact TokenType.noConfusion h
  · intro c cs _ _ h
    rcases wordToken_type (String.mk (c :: cs)) with h1 | h1 <;>
      · rw [h1] at h
        exact TokenType.noConfusion h

theorem invariant_number (c : Char) (cs : List Char) (hc : isdigit c = true)
    (hcs : ∀ x ∈ cs, isdigit x = true) :
    Token.Invariant ⟨TokenType.NUMBER, String.mk (c :: cs)⟩ := by
  have hne : String.mk (c :: cs) ≠ "int" := by
    intro h
    have h1 : c = 'i' := by
      have := congrArg String.data h
      simp at this
      exact this.1
    subst h1
    revert hc
    decide
  refine ⟨⟨fun h => TokenType.noConfusion h, fun h => absurd h hne⟩, ?_, ?_, ?_, ?_, ?_, ?_, ?_, ?_⟩
  all_goals first
    | (intro h; exact TokenType.noConfusion h)
    | skip
  intro _
  simp only [isNumberText, List.isEmpty_cons, Bool.not_false, Bool.true_and, List.all_cons,
    hc, List.all_eq_true]
  exact hcs

theorem invariant_word (c : Char) (cs : List Char) (hc : isalpha c = true)
    (hcs : ∀ x ∈ cs, isalnum x = true) :
    Token.Invariant (wordToken (String.mk (c :: cs))) := by
  refine ⟨?_, ?_, ?_, ?_, ?_, ?_, ?_, ?_, ?_⟩
  · rw [wordToken_value]
    exact wordToken_type_INT_iff _
  · intro h
    rw [wordToken_value]
    refine ⟨?_, ?_⟩
    · simp only [isIdentifierText, hc, Bool.true_and, List.all_eq_true]
      exact hcs
    intro hv
    rw [(wordToken_type_INT_iff _).mpr hv] at h
    exact TokenType.noConfusion h
  all_goals
    intro h
    rcases wordToken_type (String.mk (c :: cs)) with h1 | h1 <;>
      · rw [h1] at h
        exact TokenType.noConfusion h

theorem scan_invariant (l : List Char) : ∀ t ∈ scan l, Token.Invariant t := by
  refine scan_forall Token.Invariant ?_ ?_ ?_ ?_ ?_ ?_ invariant_number invariant_word
    l.length l (Nat.le_refl _)
  all_goals decide

/-- C1: on every source string `tokenize` returns; the last token returned is `END` with
empty text, and no token before the last has kind `END`. -/
theorem tokenize_ends_with_END (source : String) :
    ∃ tokens, tokenize source = some tokens ∧
      tokens.getLast? = some ⟨TokenType.END, ""⟩ ∧
      ∀ t ∈ tokens.dropLast, t.type ≠ TokenType.END := by
  refine ⟨_, tokenize_eq_scan source, by simp, ?_⟩
  intro t ht
  rw [List.dropLast_concat] at ht
  exact scan_no_END _ t ht

/-- C7: every token that `tokenize` returns has kind `INT` exactly when its text is
`"int"`; an `IDENTIFIER` has a text that starts with a letter, continues with letters and
digits and is not `"int"`; a `NUMBER` has a non-empty text of digits; the six punctuation
kinds carry their own character. -/
theorem tokenize_token_invariant (source : String) :
    ∃ tokens, tokenize source = some tokens ∧ ∀ t ∈ tokens, Token.Invariant t := by
  refine ⟨_, tokenize_eq_scan source, ?_⟩
  intro t ht
  rcases List.mem_append.mp ht with h | h
  · exact scan_invariant _ t h
  · have : t = ⟨TokenType.END, ""⟩ := by simpa using h
    subst this
    decide

/-! ## Runs of characters followed by a character outside the class -/

theorem takeWhile_append_cons_of_neg {α : Type} (q : α → Bool) (l : List α) (c : α)
    (r : List α) (hc : q c = false) : (l ++ c :: r).takeWhile q = l.takeWhile q := by
  induction l with
  | nil => simp [List.takeWhile_cons, hc]
  | cons a l ih =>
    by_cases ha : q a = true
    · simp [List.takeWhile_cons, ha, ih]
    · simp [List.takeWhile_cons, ha]

theorem dropWhile_append_cons_of_neg {α : Type} (q : α → Bool) (l : List α) (c : α)
    (r : List α) (hc : q c = false) :
    (l ++ c :: r).dropWhile q = l.dropWhile q ++ c :: r := by
  induction l with
  | nil => simp [List.dropWhile_cons, hc]
  | cons a l ih =>
    by_cases ha : q a = true
    · simp [List.dropWhile_cons, ha, ih]
    · simp [List.dropWhile_cons, ha]

theorem takeWhile_eq_self {α : Type} (q : α → Bool) (l : List α)
    (h : ∀ x ∈ l, q x = true) : l.takeWhile q = l := by
  induction l with
  | nil => rfl
  | cons a l ih =>
    have ha : q a = true := h a (List.mem_cons_self _ _)
    simp [List.takeWhile_cons, ha, ih (fun x hx => h x (List.mem_cons_of_mem _ hx))]

theorem dropWhile_eq_nil {α : Type} (q : α → Bool) (l : List α)
    (h : ∀ x ∈ l, q x = true) : l.dropWhile q = [] := by
  induction l with
  | nil => rfl
  | cons a l ih =>
    have ha : q a = true := h a (List.mem_cons_self _ _)
    simp [List.dropWhile_cons, ha, ih (fun x hx => h x (List.mem_cons_of_mem _ hx))]

/-- A word followed by a character that is neither a letter nor a digit is one token. -/
theorem scan_word_then (c : Char) (cs : List Char) (s : Char) (r : List Char)
    (hc : isalpha c = true) (hcs : ∀ x ∈ cs, isalnum x = true) (hs : isalnum s = false) :
    scan (c :: (cs ++ s :: r)) = wordToken (String.mk (c :: cs)) :: scan (s :: r) := by
  rw [scan_alpha c _ hc, takeWhile_append_cons_of_neg _ _ _ _ hs,
    dropWhile_append_cons_of_neg _ _ _ _ hs, takeWhile_eq_self _ _ hcs,
    dropWhile_eq_nil _ _ hcs]
  rfl

/-- A run of digits followed by a character that is not a digit is one token. -/
theorem scan_number_then (c : Char) (cs : List Char) (s : Char) (r : List Char)
    (hc : isdigit c = true) (hcs : ∀ x ∈ cs, isdigit x = true) (hs : isdigit s = false) :
    scan (c :: (cs ++ s :: r)) =
      ⟨TokenType.NUMBER, String.mk (c :: cs)⟩ :: scan (s :: r) := by
  rw [scan_digit c _ hc, takeWhile_append_cons_of_neg _ _ _ _ hs,
    dropWhile_append_cons_of_neg _ _ _ _ hs, takeWhile_eq_self _ _ hcs,
    dropWhile_eq_nil _ _ hcs]
  rfl

theorem scan_simple_declaration (c : Char) (cs : List Char) (e : Char) (es : List Char)
    (hc : isalpha c = true) (hcs : ∀ x ∈ cs, isalnum x = true)
    (he : isdigit e = true) (hes : ∀ x ∈ es, isdigit x = true) :
    scan ('i' :: (['n', 't'] ++ ' ' :: (c :: (cs ++ ' ' :: '=' :: ' ' ::
      (e :: (es ++ ';' :: [])))))) =
      [wordToken "int", wordToken (String.mk (c :: cs)), ⟨TokenType.ASSIGN, "="⟩,
        ⟨TokenType.NUMBER, String.mk (e :: es)⟩, ⟨TokenType.SEMICOLON, ";"⟩] := by
  rw [scan_word_then 'i' ['n', 't'] ' ' _ (by decide) (by decide) (by decide),
    scan_space ' ' _ (by decide),
    scan_word_then c cs ' ' _ hc hcs (by decide),
    scan_space ' ' _ (by decide)]
  rw [scan_cons '=']
  simp only [show isspace '=' = false by decide, show ('=' : Char) ≠ '+' by decide,
    show ('=' : Char) ≠ '-' by decide, show ('=' : Char) ≠ '*' by decide,
    show ('=' : Char) ≠ '/' by decide, if_true, if_false, Bool.false_eq_true]
  rw [scan_space ' ' _ (by decide), scan_number_then e es ';' _ he hes (by decide)]
  rw [scan_cons ';', scan_nil]
  simp only [show isspace ';' = false by decide, show (';' : Char) ≠ '+' by decide,
    show (';' : Char) ≠ '-' by decide, show (';' : Char) ≠ '*' by decide,
    show (';' : Char) ≠ '/' by decide, show (';' : Char) ≠ '=' by decide,
    if_true, if_false, Bool.false_eq_true]

/-- C6: for an identifier text `n` other than `"int"` and a non-empty text `d` of digits,
the tokens of `"int " ++ n ++ " = " ++ d ++ ";"` are exactly `INT("int")`, `IDENTIFIER(n)`,
`ASSIGN("=")`, `NUMBER(d)`, `SEMICOLON(";")`, `END("")`. -/
theorem tokenize_simple_declaration (n d : String) (hn : isIdentifierText n = true)
    (hne : n ≠ "int") (hd : isNumberText d = true) :
    tokenize ("int " ++ n ++ " = " ++ d ++ ";") =
      some [⟨TokenType.INT, "int"⟩, ⟨TokenType.IDENTIFIER, n⟩, ⟨TokenType.ASSIGN, "="⟩,
        ⟨TokenType.NUMBER, d⟩, ⟨TokenType.SEMICOLON, ";"⟩, ⟨TokenType.END, ""⟩] := by
  obtain ⟨nd⟩ := n
  obtain ⟨dd⟩ := d
  cases nd with
  | nil => simp [isIdentifierText] at hn
  | cons c cs =>
    cases dd with
    | nil => simp [isNumberText] at hd
    | cons e es =>
      simp only [isIdentifierText, Bool.and_eq_true, List.all_eq_true] at hn
      simp only [isNumberText, List.isEmpty_cons, Bool.not_false, Bool.true_and,
        List.all_cons, Bool.and_eq_true, List.all_eq_true] at hd
      have hscan := scan_simple_declaration c cs e es hn.1 hn.2 hd.1 hd.2
      have hw : wordToken (String.mk (c :: cs)) = ⟨TokenType.IDENTIFIER, String.mk (c :: cs)⟩ := by
        simp [wordToken, hne]
      rw [tokenize_eq_scan]
      have hdata : (("int " ++ String.mk (c :: cs) ++ " = " ++ String.mk (e :: es) ++ ";" :
          String)).data = 'i' :: (['n', 't'] ++ ' ' :: (c :: (cs ++ ' ' :: '=' :: ' ' ::
            (e :: (es ++ ';' :: []))))) := by
        simp [String.data_append]
      rw [hdata, hscan, hw]
      rfl

/-- The witness of C6: the source `"int x = 1;"`. -/
theorem tokenize_simple_declaration_witness :
    tokenize "int x = 1;" =
      some [⟨TokenType.INT, "int"⟩, ⟨TokenType.IDENTIFIER, "x"⟩, ⟨TokenType.ASSIGN, "="⟩,
        ⟨TokenType.NUMBER, "1"⟩, ⟨TokenType.SEMICOLON, ";"⟩, ⟨TokenType.END, ""⟩] :=
  tokenize_simple_declaration "x" "1" (by decide) (by decide) (by decide)

theorem isspace_not_isdigit {c : Char} (h : isspace c = true) : isdigit c = false := by
  cases hd : isdigit c with
  | false => rfl
  | true => rw [isdigit_not_isspace hd] at h; exact absurd h (by decide)

theorem isspace_not_isalpha {c : Char} (h : isspace c = true) : isalpha c = false := by
  cases hd : isalpha c with
  | false => rfl
  | true => rw [isalpha_not_isspace hd] at h; exact absurd h (by decide)

theorem separator_not_isdigit {c : Char} (h : isspace c = true ∨ isUnrecognized c = true) :
    isdigit c = false := by
  rcases h with h | h
  · exact isspace_not_isdigit h
  · simp [isUnrecognized] at h
    exact h.1.2

theorem separator_not_isalnum {c : Char} (h : isspace c = true ∨ isUnrecognized c = true) :
    isalnum c = false := by
  rcases h with h | h
  · simp [isalnum, isspace_not_isdigit h, isspace_not_isalpha h]
  · simp [isUnrecognized] at h
    simp [isalnum, h.1.2, h.2]

theorem scan_separator {c : Char} (h : isspace c = true ∨ isUnrecognized c = true)
    (r : List Char) : scan (c :: r) = scan r := by
  rcases h with h | h
  · exact scan_space c r h
  · simp [isUnrecognized] at h
    obtain ⟨⟨⟨⟨⟨⟨⟨⟨h0, h1⟩, h2⟩, h3⟩, h4⟩, h5⟩, h6⟩, h7⟩, h8⟩ := h
    rw [scan_cons]
    simp [h0, h1, h2, h3, h4, h5, h6, h7, h8]

/-- A skipped character splits the text: the tokens are those of the text before it
followed by those of the text after it. -/
theorem scan_append_separator {c : Char} (h : isspace c = true ∨ isUnrecognized c = true)
    (s2 : List Char) :
    ∀ (n : Nat) (s1 : List Char), s1.length ≤ n →
      scan (s1 ++ c :: s2) = scan s1 ++ scan s2 := by
  intro n
  induction n with
  | zero =>
    intro s1 hl
    have : s1 = [] := List.length_eq_zero.mp (Nat.le_zero.mp hl)
    subst this
    simp [scan_nil, scan_separator h]
  | succ n ih =>
    intro s1 hl
    cases s1 with
    | nil => simp [scan_nil, scan_separator h]
    | cons a as =>
      have has : as.length ≤ n := by simpa using hl
      have tail := ih as has
      rw [List.cons_append, scan_cons a (as ++ c :: s2), scan_cons a as]
      by_cases hsp : isspace a = true
      · simp only [hsp, if_true, tail]
      simp only [hsp, if_false, Bool.false_eq_true]
      by_cases hp : a = '+'
      · simp [hp, tail]
      simp only [hp, if_false]
      by_cases hm : a = '-'
      · simp [hm, tail]
      simp only [hm, if_false]
      by_cases hmu : a = '*'
      · simp [hmu, tail]
      simp only [hmu, if_false]
      by_cases hdv : a = '/'
      · simp [hdv, tail]
      simp only [hdv, if_false]
      by_cases hq : a = '='
      · simp [hq, tail]
      simp only [hq, if_false]
      by_cases hse : a = ';'
      · simp [hse, tail]
      simp only [hse, if_false]
      by_cases hdg : isdigit a = true
      · simp only [hdg, if_true]
        rw [takeWhile_append_cons_of_neg _ _ _ _ (separator_not_isdigit h),
          dropWhile_append_cons_of_neg _ _ _ _ (separator_not_isdigit h),
          ih _ (Nat.le_trans (List.dropWhile_suffix _).length_le has)]
        rfl
      simp only [hdg, if_false, Bool.false_eq_true]
      by_cases hal : isalpha a = true
      · simp only [hal, if_true]
        rw [takeWhile_append_cons_of_neg _ _ _ _ (separator_not_isalnum h),
          dropWhile_append_cons_of_neg _ _ _ _ (separator_not_isalnum h),
          ih _ (Nat.le_trans (List.dropWhile_suffix _).length_le has)]
        rfl
      simp only [hal, if_false, Bool.false_eq_true, tail]

/-- C8: a character `c` that is white space or unrecognized produces no token and splits
the text: the tokens of `s1 ++ [c] ++ s2` are those of `s1` without the final `END`,
followed by those of `s2`; and the tokens of `"@"` are `END("")` alone. -/
theorem tokenize_skips_separator (s1 s2 : String) (c : Char)
    (hc : isspace c = true ∨ isUnrecognized c = true) :
    (∃ t1 t2, tokenize s1 = some t1 ∧ tokenize s2 = some t2 ∧
      tokenize (s1 ++ String.singleton c ++ s2) = some (t1.dropLast ++ t2)) ∧
    tokenize "@" = some [⟨TokenType.END, ""⟩] := by
  refine ⟨⟨_, _, tokenize_eq_scan s1, tokenize_eq_scan s2, ?_⟩, by decide⟩
  rw [tokenize_eq_scan, List.dropLast_concat]
  have hdata : (s1 ++ String.singleton c ++ s2).data = s1.data ++ c :: s2.data := by
    simp [String.data_append, String.singleton]
  rw [hdata, scan_append_separator hc s2.data s1.data.length s1.data (Nat.le_refl _)]
  simp

/-- The witness of C8: the unrecognized character `@` between `in` and `t`. -/
theorem tokenize_skips_separator_witness :
    (∃ t1 t2, tokenize "in" = some t1 ∧ tokenize "t" = some t2 ∧
      tokenize ("in" ++ String.singleton '@' ++ "t") = some (t1.dropLast ++ t2)) ∧
    tokenize "@" = some [⟨TokenType.END, ""⟩] :=
  tokenize_skips_separator "in" "t" '@' (Or.inr (by decide))

/-! ## The parsing primitives at a cursor with an unread token -/

theorem peek_of_drop {tokens : List Token} {p : Nat} {t : Token} {r : List Token}
    (h : tokens.drop p = t :: r) : peek tokens p = some t :=
  getElem?_of_drop_cons h

theorem previous_succ_of_drop {tokens : List Token} {p : Nat} {t : Token} {r : List Token}
    (h : tokens.drop p = t :: r) : previous tokens (p + 1) = some t := by
  simp [previous, getElem?_of_drop_cons h]

theorem isAtEnd_of_drop {tokens : List Token} {p : Nat} {t : Token} {r : List Token}
    (h : tokens.drop p = t :: r) :
    isAtEnd tokens p = some (t.type == TokenType.END) := by
  simp [isAtEnd, peek_of_drop h]

theorem check_of_drop {tokens : List Token} {p : Nat} {t : Token} {r : List Token}
    (h : tokens.drop p = t :: r) (type : TokenType) :
    check tokens p type = some (t.type != TokenType.END && t.type == type) := by
  rw [check, isAtEnd_of_drop h, peek_of_drop h]
  cases hE : (t.type == TokenType.END) <;> simp [bne, hE]

theorem advance_of_drop {tokens : List Token} {p : Nat} {t : Token} {r : List Token}
    (h : tokens.drop p = t :: r) (hE : t.type ≠ TokenType.END) :
    advance tokens p = some (t, p + 1) := by
  have hb : (t.type == TokenType.END) = false := by simpa using hE
  simp [advance, isAtEnd_of_drop h, hb, previous_succ_of_drop h]

/-- The method `match` at an unread token `t`: it answers true and moves one token on
when `t` has the asked kind and is not `END`, and answers false without moving
otherwise. -/
theorem matchType_of_drop {tokens : List Token} {p : Nat} {t : Token} {r : List Token}
    (h : tokens.drop p = t :: r) (type : TokenType) :
    matchType tokens p type =
      some (if t.type ≠ TokenType.END ∧ t.type = type then (true, p + 1) else (false, p)) := by
  rw [matchType, check_of_drop h]
  by_cases hE : t.type = TokenType.END
  · simp [hE]
  · by_cases hT : t.type = type
    · have h1 : (t.type != TokenType.END && t.type == type) = true := by
        simp only [bne, Bool.and_eq_true, Bool.not_eq_true', beq_eq_false_iff_ne, ne_eq,
          beq_iff_eq]
        exact ⟨hE, hT⟩
      rw [h1]
      simp only [advance_of_drop h hE]
      rw [if_pos ⟨hE, hT⟩]
    · have h1 : (t.type != TokenType.END && t.type == type) = false := by simp [hT]
      rw [h1]
      simp [hT]

/-- The method `consume` at an unread token `t`. -/
theorem consume_of_drop {tokens : List Token} {p : Nat} {t : Token} {r : List Token}
    (h : tokens.drop p = t :: r) (type : TokenType) :
    consume tokens p type =
      some (if t.type ≠ TokenType.END ∧ t.type = type then (t, p + 1)
        else (Token.placeholder, p)) := by
  rw [consume, check_of_drop h]
  by_cases hE : t.type = TokenType.END
  · simp [hE]
  · by_cases hT : t.type = type
    · have h1 : (t.type != TokenType.END && t.type == type) = true := by
        simp only [bne, Bool.and_eq_true, Bool.not_eq_true', beq_eq_false_iff_ne, ne_eq,
          beq_iff_eq]
        exact ⟨hE, hT⟩
      rw [h1]
      simp only [advance_of_drop h hE]
      rw [if_pos ⟨hE, hT⟩]
    · have h1 : (t.type != TokenType.END && t.type == type) = false := by simp [hT]
      rw [h1]
      simp [hT]

/-- The method `parseFactor` at an unread token `t`. -/
theorem parseFactor_of_drop {tokens : List Token} {p : Nat} {t : Token} {r : List Token}
    (h : tokens.drop p = t :: r) :
    parseFactor tokens p =
      some (if isFactor t then (leaf t, p + 1) else (ASTNode.nullptr, p)) := by
  unfold parseFactor
  rw [matchType_of_drop h]
  by_cases hN : t.type = TokenType.NUMBER
  · simp [hN, previous_succ_of_drop h, isFactor, leaf]
  · by_cases hI : t.type = TokenType.IDENTIFIER
    · simp [hI, matchType_of_drop h, previous_succ_of_drop h, isFactor, leaf]
    · simp [hN, hI, matchType_of_drop h, peek_of_drop h, isFactor]

/-- The loop condition of `parseTerm` at an unread token `t`. -/
theorem matchOperator_of_drop {tokens : List Token} {p : Nat} {t : Token} {r : List Token}
    (h : tokens.drop p = t :: r) :
    matchOperator tokens p = some (if isOperator t then (true, p + 1) else (false, p)) := by
  unfold matchOperator
  rw [matchType_of_drop h]
  by_cases h1 : t.type = TokenType.MULTIPLY
  · simp [h1, isOperator]
  by_cases h2 : t.type = TokenType.DIVIDE
  · simp [h2, isOperator, matchType_of_drop h]
  by_cases h3 : t.type = TokenType.PLUS
  · simp [h3, isOperator, matchType_of_drop h]
  by_cases h4 : t.type = TokenType.MINUS
  · simp [h4, isOperator, matchType_of_drop h]
  simp [h1, h2, h3, h4, isOperator, matchType_of_drop h]

/-! ## Well-formed expressions and declarations -/

theorem length_operands (rest : List (Token × Token)) :
    (operands rest).length = 2 * rest.length := by
  induction rest with
  | nil => rfl
  | cons x rest ih =>
    obtain ⟨op, f⟩ := x
    simp [operands, ih]
    omega

theorem isOperator_not_END {t : Token} (h : isOperator t = true) :
    t.type ≠ TokenType.END := by
  intro hE
  simp [isOperator, hE] at h

theorem isFactor_not_END {t : Token} (h : isFactor t = true) : t.type ≠ TokenType.END := by
  intro hE
  simp [isFactor, hE] at h

/-- The loop of `parseTerm` on `(op f)*` followed by a token that is no operator. -/
theorem parseTermLoop_operands (tokens : List Token) :
    ∀ (rest : List (Token × Token)) (fuel p : Nat) (node : ASTNode) (stop : Token)
      (tail : List Token),
      tokens.drop p = operands rest ++ stop :: tail →
      wellFormedOperands rest = true → isOperator stop = false → rest.length < fuel →
      parseTermLoop tokens fuel p node =
        some (foldOperands node rest, p + 2 * rest.length) := by
  intro rest
  induction rest with
  | nil =>
    intro fuel p node stop tail h _ hstop hf
    cases fuel with
    | zero => simp at hf
    | succ fuel =>
      have h0 : tokens.drop p = stop :: tail := by simpa [operands] using h
      simp [parseTermLoop, matchOperator_of_drop h0, hstop, foldOperands]
  | cons x rest ih =>
    intro fuel p node stop tail h hw hstop hf
    obtain ⟨op, f⟩ := x
    cases fuel with
    | zero => simp at hf
    | succ fuel =>
      have h0 : tokens.drop p = op :: f :: (operands rest ++ stop :: tail) := by
        simpa [operands] using h
      have h1 := drop_succ_of_drop_cons h0
      have h2 := drop_succ_of_drop_cons h1
      simp only [wellFormedOperands, List.all_cons, Bool.and_eq_true] at hw
      obtain ⟨⟨hop, hfac⟩, hrest⟩ := hw
      have hlen : rest.length < fuel := by simpa using hf
      rw [parseTermLoop, matchOperator_of_drop h0]
      simp only [hop, if_true]
      rw [previous_succ_of_drop h0, parseFactor_of_drop h1]
      simp only [hfac, if_true]
      rw [ih fuel (p + 1 + 1) _ stop tail h2 hrest hstop hlen]
      simp [foldOperands, Nat.mul_succ]
      omega

/-- The method `parseTerm` on `f0 (op f)*` followed by a token that is no operator. -/
theorem parseTerm_operands {tokens : List Token} {p : Nat} {f0 stop : Token}
    {rest : List (Token × Token)} {tail : List Token}
    (h : tokens.drop p = f0 :: (operands rest ++ stop :: tail))
    (hf0 : isFactor f0 = true) (hrest : wellFormedOperands rest = true)
    (hstop : isOperator stop = false) :
    parseTerm tokens p = some (leftFold f0 rest, p + 1 + 2 * rest.length) := by
  have hlen : rest.length < tokens.length + 1 := by
    have h1 := length_le_of_drop h
    simp [length_operands] at h1
    omega
  rw [parseTerm, parseFactor_of_drop h]
  simp only [hf0, if_true]
  rw [parseTermLoop_operands tokens rest _ (p + 1) _ stop tail (drop_succ_of_drop_cons h)
    hrest hstop hlen]
  rfl

/-- C2: when the tokens from the cursor read `f0 op1 f1 ... opn fn` followed by a token
that is not an operator, `parseTerm` returns the left fold
`BinaryOperation(opn, ... BinaryOperation(op1, leaf f0, leaf f1) ..., leaf fn)` and leaves
the cursor just after `fn`; and `"int a = 1 + 2 * 3;"` parses to the single declaration
whose expression is `(1 + 2) * 3`. -/
theorem parseTerm_left_fold (tokens : List Token) (position : Nat) (f0 stop : Token)
    (rest : List (Token × Token)) (tail : List Token)
    (h : tokens.drop position = f0 :: (operands rest ++ stop :: tail))
    (hf0 : isFactor f0 = true) (hrest : wellFormedOperands rest = true)
    (hstop : isOperator stop = false) :
    parseTerm tokens position = some (leftFold f0 rest, position + 1 + 2 * rest.length) ∧
    compile "int a = 1 + 2 * 3;" =
      some [ASTNode.DeclarationNode "int"
        (ASTNode.AssignmentNode (ASTNode.IdentifierNode "a")
          (ASTNode.BinaryOperationNode "*"
            (ASTNode.BinaryOperationNode "+" (ASTNode.NumberNode "1") (ASTNode.NumberNode "2"))
            (ASTNode.NumberNode "3")))] :=
  ⟨parseTerm_operands h hf0 hrest hstop, by decide⟩

/-- The witness of C2: the expression `1 + 2 * 3` inside `int a = 1 + 2 * 3;`, read from
cursor 3. -/
theorem parseTerm_left_fold_witness :
    parseTerm
        [⟨TokenType.INT, "int"⟩, ⟨TokenType.IDENTIFIER, "a"⟩, ⟨TokenType.ASSIGN, "="⟩,
          ⟨TokenType.NUMBER, "1"⟩, ⟨TokenType.PLUS, "+"⟩, ⟨TokenType.NUMBER, "2"⟩,
          ⟨TokenType.MULTIPLY, "*"⟩, ⟨TokenType.NUMBER, "3"⟩, ⟨TokenType.SEMICOLON, ";"⟩,
          ⟨TokenType.END, ""⟩] 3 =
      some (ASTNode.BinaryOperationNode "*"
        (ASTNode.BinaryOperationNode "+" (ASTNode.NumberNode "1") (ASTNode.NumberNode "2"))
        (ASTNode.NumberNode "3"), 8) :=
  (parseTerm_left_fold _ 3 ⟨TokenType.NUMBER, "1"⟩ ⟨TokenType.SEMICOLON, ";"⟩
    [(⟨TokenType.PLUS, "+"⟩, ⟨TokenType.NUMBER, "2"⟩),
      (⟨TokenType.MULTIPLY, "*"⟩, ⟨TokenType.NUMBER, "3"⟩)]
    [⟨TokenType.END, ""⟩] (by decide) (by decide) (by decide) (by decide)).1

/-- The method `parseDeclaration` on a well-formed declaration block. -/
theorem parseDeclaration_block {tokens : List Token} {p : Nat} {b : DeclarationBlock}
    {tail : List Token} (h : tokens.drop p = b.tokens ++ tail)
    (hb : b.wellFormed = true) :
    parseDeclaration tokens p = some (b.node, p + b.tokens.length) := by
  simp only [DeclarationBlock.wellFormed, Bool.and_eq_true, beq_iff_eq] at hb
  obtain ⟨⟨⟨⟨⟨hk, hn⟩, ha⟩, hf⟩, hr⟩, hs⟩ := hb
  have h0 : tokens.drop p = b.keyword :: b.name :: b.assign :: b.first ::
      (operands b.rest ++ b.semicolon :: tail) := by
    simpa [DeclarationBlock.tokens] using h
  have h1 := drop_succ_of_drop_cons h0
  have h2 := drop_succ_of_drop_cons h1
  have h3 := drop_succ_of_drop_cons h2
  have h4 : tokens.drop (p + 1 + 1 + 1 + 1 + 2 * b.rest.length) = b.semicolon :: tail := by
    rw [drop_add_of_drop _ (drop_succ_of_drop_cons h3), ← length_operands]
    simp
  have hstop : isOperator b.semicolon = false := by simp [isOperator, hs]
  unfold parseDeclaration
  rw [matchType_of_drop h0]
  simp only [hk, ne_eq, not_false_eq_true, and_self, if_true, reduceCtorEq]
  rw [previous_succ_of_drop h0, consume_of_drop h1]
  simp only [hn, ne_eq, not_false_eq_true, and_self, if_true, reduceCtorEq]
  rw [consume_of_drop h2]
  simp only [ha, ne_eq, not_false_eq_true, and_self, if_true, reduceCtorEq]
  rw [parseExpression, parseTerm_operands h3 hf hr hstop]
  simp only []
  rw [consume_of_drop h4]
  simp only [hs, ne_eq, not_false_eq_true, and_self, if_true, reduceCtorEq]
  simp [DeclarationBlock.node, DeclarationBlock.tokens, length_operands]
  omega

theorem length_le_blocksTokens (blocks : List DeclarationBlock) :
    blocks.length ≤ (blocksTokens blocks).length := by
  induction blocks with
  | nil => simp [blocksTokens]
  | cons b bs ih =>
    simp [blocksTokens, DeclarationBlock.tokens]
    omega

/-- The loop of `parse` on well-formed declaration blocks followed by `END`. -/
theorem parseLoop_blocks (tokens : List Token) (e : Token) (tail : List Token)
    (he : e.type = TokenType.END) :
    ∀ (blocks : List DeclarationBlock) (fuel p : Nat) (statements : List ASTNode),
      tokens.drop p = blocksTokens blocks ++ e :: tail →
      (∀ b ∈ blocks, b.wellFormed = true) → blocks.length < fuel →
      parseLoop tokens fuel p statements =
        some (statements ++ blocks.map DeclarationBlock.node,
          p + (blocksTokens blocks).length) := by
  intro blocks
  induction blocks with
  | nil =>
    intro fuel p statements h _ hf
    cases fuel with
    | zero => simp at hf
    | succ fuel =>
      have h0 : tokens.drop p = e :: tail := by simpa [blocksTokens] using h
      simp [parseLoop, isAtEnd_of_drop h0, he, blocksTokens]
  | cons b bs ih =>
    intro fuel p statements h hw hf
    cases fuel with
    | zero => simp at hf
    | succ fuel =>
      have hb : b.wellFormed = true := hw b (List.mem_cons_self _ _)
      have hbs : ∀ x ∈ bs, x.wellFormed = true := fun x hx => hw x (List.mem_cons_of_mem _ hx)
      have h0 : tokens.drop p = b.tokens ++ (blocksTokens bs ++ e :: tail) := by
        simpa [blocksTokens] using h
      have hk : b.keyword.type = TokenType.INT := by
        simp only [DeclarationBlock.wellFormed, Bool.and_eq_true, beq_iff_eq] at hb
        exact hb.1.1.1.1.1
      have hhead : tokens.drop p = b.keyword :: (b.name :: b.assign :: b.first ::
          (operands b.rest ++ [b.semicolon]) ++ (blocksTokens bs ++ e :: tail)) := by
        simpa [DeclarationBlock.tokens] using h0
      have hnext : tokens.drop (p + b.tokens.length) = blocksTokens bs ++ e :: tail := by
        rw [drop_add_of_drop _ h0]
        simp
      have hlen : bs.length < fuel := by simpa using hf
      rw [parseLoop, isAtEnd_of_drop hhead, parseDeclaration_block h0 hb]
      have hE : (b.keyword.type == TokenType.END) = false := by rw [hk]; rfl
      have hnull : b.node.isNull = false := rfl
      rw [hE]
      simp only [hnull, Bool.false_eq_true, if_false]
      rw [ih fuel _ _ hnext hbs hlen]
      simp [blocksTokens, Nat.add_assoc]

/-- C3: on `k` well-formed declaration blocks followed by `END`, `parse` returns exactly
the `k` declarations of the blocks, in source order: the `i`-th holds the text of the
`i`-th `INT` token, the name of the `i`-th identifier and the left fold of the `i`-th
expression.  The source `"int sum = a * b; int total = sum + 10;"` gives the declaration
of `sum` and then that of `total`. -/
theorem parse_declaration_blocks (blocks : List DeclarationBlock) (e : Token)
    (hw : ∀ b ∈ blocks, b.wellFormed = true) (he : e.type = TokenType.END) :
    parse (blocksTokens blocks ++ [e]) = some (blocks.map DeclarationBlock.node) ∧
    compile "int sum = a * b; int total = sum + 10;" =
      some [ASTNode.DeclarationNode "int"
          (ASTNode.AssignmentNode (ASTNode.IdentifierNode "sum")
            (ASTNode.BinaryOperationNode "*" (ASTNode.IdentifierNode "a")
              (ASTNode.IdentifierNode "b"))),
        ASTNode.DeclarationNode "int"
          (ASTNode.AssignmentNode (ASTNode.IdentifierNode "total")
            (ASTNode.BinaryOperationNode "+" (ASTNode.IdentifierNode "sum")
              (ASTNode.NumberNode "10")))] := by
  refine ⟨?_, by decide⟩
  have hlen : blocks.length < (blocksTokens blocks ++ [e]).length + 1 := by
    have := length_le_blocksTokens blocks
    simp
    omega
  rw [parse, parseLoop_blocks _ e [] he blocks _ 0 [] (by simp) hw hlen]
  simp

/-- The witness of C3: the two blocks of `int sum = a * b; int total = sum + 10;`. -/
theorem parse_declaration_blocks_witness :
    parse
        [⟨TokenType.INT, "int"⟩, ⟨TokenType.IDENTIFIER, "sum"⟩, ⟨TokenType.ASSIGN, "="⟩,
          ⟨TokenType.IDENTIFIER, "a"⟩, ⟨TokenType.MULTIPLY, "*"⟩,
          ⟨TokenType.IDENTIFIER, "b"⟩, ⟨TokenType.SEMICOLON, ";"⟩,
          ⟨TokenType.INT, "int"⟩, ⟨TokenType.IDENTIFIER, "total"⟩, ⟨TokenType.ASSIGN, "="⟩,
          ⟨TokenType.IDENTIFIER, "sum"⟩, ⟨TokenType.PLUS, "+"⟩,
          ⟨TokenType.NUMBER, "10"⟩, ⟨TokenType.SEMICOLON, ";"⟩, ⟨TokenType.END, ""⟩] =
      some [ASTNode.DeclarationNode "int"
          (ASTNode.AssignmentNode (ASTNode.IdentifierNode "sum")
            (ASTNode.BinaryOperationNode "*" (ASTNode.IdentifierNode "a")
              (ASTNode.IdentifierNode "b"))),
        ASTNode.DeclarationNode "int"
          (ASTNode.AssignmentNode (ASTNode.IdentifierNode "total")
            (ASTNode.BinaryOperationNode "+" (ASTNode.IdentifierNode "sum")
              (ASTNode.NumberNode "10")))] :=
  (parse_declaration_blocks
    [⟨⟨TokenType.INT, "int"⟩, ⟨TokenType.IDENTIFIER, "sum"⟩, ⟨TokenType.ASSIGN, "="⟩,
        ⟨TokenType.IDENTIFIER, "a"⟩,
        [(⟨TokenType.MULTIPLY, "*"⟩, ⟨TokenType.IDENTIFIER, "b"⟩)],
        ⟨TokenType.SEMICOLON, ";"⟩⟩,
      ⟨⟨TokenType.INT, "int"⟩, ⟨TokenType.IDENTIFIER, "total"⟩, ⟨TokenType.ASSIGN, "="⟩,
        ⟨TokenType.IDENTIFIER, "sum"⟩,
        [(⟨TokenType.PLUS, "+"⟩, ⟨TokenType.NUMBER, "10"⟩)],
        ⟨TokenType.SEMICOLON, ";"⟩⟩]
    ⟨TokenType.END, ""⟩ (by decide) (by decide)).1

/-- One turn of the loop of `parse` at an unread token that is not `INT`: the loop
stops. -/
theorem parseLoop_not_INT {tokens : List Token} {p : Nat} {t : Token} {r : List Token}
    (h : tokens.drop p = t :: r) (ht : t.type ≠ TokenType.INT) (fuel : Nat)
    (statements : List ASTNode) :
    parseLoop tokens (fuel + 1) p statements = some (statements, p) := by
  rw [parseLoop, isAtEnd_of_drop h]
  by_cases hE : t.type = TokenType.END
  · simp [hE]
  · have hb : (t.type == TokenType.END) = false := by simpa using hE
    rw [hb]
    simp only []
    rw [parseDeclaration, matchType_of_drop h]
    simp [ht, ASTNode.isNull]

/-- C5: when the loop of `parse` meets a leading token that is not `INT` it stops and
returns the declarations accumulated so far, at the same cursor, whatever follows; so
`parse` returns no declaration on a token sequence whose first token is not `INT`, as on
the tokens of `"x = 1;"`. -/
theorem parse_stops_without_INT (tokens : List Token) (position : Nat) (t : Token)
    (r : List Token) (h : tokens.drop position = t :: r) (ht : t.type ≠ TokenType.INT)
    (fuel : Nat) (statements : List ASTNode) :
    parseLoop tokens (fuel + 1) position statements = some (statements, position) ∧
    parse (t :: r) = some [] ∧
    compile "x = 1;" = some [] := by
  refine ⟨parseLoop_not_INT h ht fuel statements, ?_, by decide⟩
  rw [parse, parseLoop_not_INT (show (t :: r).drop 0 = t :: r from rfl) ht]

/-- The witness of C5: the tokens of `"x = 1;"`, read from cursor 0. -/
theorem parse_stops_without_INT_witness :
    parseLoop [⟨TokenType.IDENTIFIER, "x"⟩, ⟨TokenType.ASSIGN, "="⟩, ⟨TokenType.NUMBER, "1"⟩,
        ⟨TokenType.SEMICOLON, ";"⟩, ⟨TokenType.END, ""⟩] (5 + 1) 0 [] = some ([], 0) ∧
    parse [⟨TokenType.IDENTIFIER, "x"⟩, ⟨TokenType.ASSIGN, "="⟩, ⟨TokenType.NUMBER, "1"⟩,
        ⟨TokenType.SEMICOLON, ";"⟩, ⟨TokenType.END, ""⟩] = some [] ∧
    compile "x = 1;" = some [] :=
  parse_stops_without_INT _ 0 ⟨TokenType.IDENTIFIER, "x"⟩ _ rfl (by decide) 5 []

/-! ## Token sequences that contain `END` -/

theorem HasEnd.exists_cons {l : List Token} (h : HasEnd l) : ∃ t r, l = t :: r := by
  obtain ⟨t, ht, _⟩ := h
  cases l with
  | nil => simp at ht
  | cons a r => exact ⟨a, r, rfl⟩

theorem HasEnd.tail {t : Token} {r : List Token} (h : HasEnd (t :: r))
    (ht : t.type ≠ TokenType.END) : HasEnd r := by
  obtain ⟨e, he, hE⟩ := h
  rcases List.mem_cons.mp he with rfl | h1
  · exact absurd hE ht
  · exact ⟨e, h1, hE⟩

theorem Consumed.zero {l : List Token} (h : HasEnd l) : Consumed l 0 := by
  refine ⟨by simpa using h, ?_⟩
  intro t ht
  simp at ht

theorem Consumed.succ {t : Token} {r : List Token} {k : Nat} (ht : t.type ≠ TokenType.END)
    (h : Consumed r k) : Consumed (t :: r) (k + 1) := by
  refine ⟨by simpa using h.1, ?_⟩
  intro x hx
  rw [List.take_succ_cons] at hx
  rcases List.mem_cons.mp hx with rfl | h1
  · exact ht
  · exact h.2 x h1

theorem Consumed.add {l : List Token} {k1 k2 : Nat} (h1 : Consumed l k1)
    (h2 : Consumed (l.drop k1) k2) : Consumed l (k1 + k2) := by
  refine ⟨?_, ?_⟩
  · have := h2.1
    rwa [List.drop_drop] at this
  · intro x hx
    rw [List.take_add] at hx
    rcases List.mem_append.mp hx with h | h
    · exact h1.2 x h
    · exact h2.2 x h

theorem Consumed.length_drop {l : List Token} {k : Nat} (h : Consumed l k) :
    (l.drop k).length + k = l.length := by
  obtain ⟨t, r, hd⟩ := h.1.exists_cons
  have h1 : (l.drop k).length = l.length - k := List.length_drop k l
  have h2 : 0 < (l.drop k).length := by rw [hd]; simp
  omega

/-! ## The grammar rules return on token sequences that contain `END`

Each statement gives the result and the number `k` of tokens consumed as a function of
the unread tokens alone: the same result is returned, `k` tokens further, for every token
vector and cursor with these unread tokens. -/

theorem consume_total {l : List Token} (h : HasEnd l) (type : TokenType) :
    ∃ (tok : Token) (k : Nat), Consumed l k ∧
      ∀ (tokens : List Token) (p : Nat), tokens.drop p = l →
        consume tokens p type = some (tok, p + k) := by
  obtain ⟨t, r, rfl⟩ := h.exists_cons
  by_cases hc : t.type ≠ TokenType.END ∧ t.type = type
  · refine ⟨t, 1, Consumed.succ hc.1 (Consumed.zero (h.tail hc.1)), ?_⟩
    intro tokens p hd
    rw [consume_of_drop hd, if_pos hc]
  · refine ⟨Token.placeholder, 0, Consumed.zero h, ?_⟩
    intro tokens p hd
    rw [consume_of_drop hd, if_neg hc]
    rfl

theorem parseFactor_total {l : List Token} (h : HasEnd l) :
    ∃ (node : ASTNode) (k : Nat), Consumed l k ∧
      ∀ (tokens : List Token) (p : Nat), tokens.drop p = l →
        parseFactor tokens p = some (node, p + k) := by
  obtain ⟨t, r, rfl⟩ := h.exists_cons
  by_cases hf : isFactor t = true
  · refine ⟨leaf t, 1, Consumed.succ (isFactor_not_END hf)
      (Consumed.zero (h.tail (isFactor_not_END hf))), ?_⟩
    intro tokens p hd
    rw [parseFactor_of_drop hd, if_pos hf]
  · refine ⟨ASTNode.nullptr, 0, Consumed.zero h, ?_⟩
    intro tokens p hd
    rw [parseFactor_of_drop hd, if_neg hf]
    rfl

theorem parseTermLoop_total :
    ∀ (n : Nat) (l : List Token), l.length ≤ n → HasEnd l → ∀ (node : ASTNode),
      ∃ (result : ASTNode) (k : Nat), Consumed l k ∧
        ∀ (tokens : List Token) (p fuel : Nat), tokens.drop p = l → l.length < fuel →
          parseTermLoop tokens fuel p node = some (result, p + k) := by
  intro n
  induction n with
  | zero =>
    intro l hl h
    obtain ⟨t, r, rfl⟩ := h.exists_cons
    simp at hl
  | succ n ih =>
    intro l hl h node
    obtain ⟨t, r, rfl⟩ := h.exists_cons
    have hr : r.length ≤ n := by simpa using hl
    by_cases hop : isOperator t = true
    · have hE := isOperator_not_END hop
      have hEr := h.tail hE
      obtain ⟨right, k1, hc1, hfac⟩ := parseFactor_total hEr
      have hlen := hc1.length_drop
      obtain ⟨result, k2, hc2, hloop⟩ := ih (r.drop k1) (by omega) hc1.1
        (ASTNode.BinaryOperationNode t.value node right)
      refine ⟨result, 1 + k1 + k2, ?_, ?_⟩
      · have h1 : Consumed (t :: r) (k1 + 1) := Consumed.succ hE hc1
        have h2 : Consumed (t :: r) (k1 + 1 + k2) := Consumed.add h1 (by simpa using hc2)
        rwa [Nat.add_comm 1 k1]
      · intro tokens p fuel hd hf
        cases fuel with
        | zero => simp at hf
        | succ fuel =>
          have hd1 := drop_succ_of_drop_cons hd
          have hd2 : tokens.drop (p + 1 + k1) = r.drop k1 := drop_add_of_drop k1 hd1
          have hlt : (r.drop k1).length < fuel := by
            simp only [List.length_cons] at hf
            omega
          rw [parseTermLoop, matchOperator_of_drop hd]
          simp only [hop, if_true]
          rw [previous_succ_of_drop hd, hfac tokens (p + 1) hd1]
          simp only []
          rw [hloop tokens (p + 1 + k1) fuel hd2 hlt]
          simp [Nat.add_assoc]
    · refine ⟨node, 0, Consumed.zero h, ?_⟩
      intro tokens p fuel hd hf
      cases fuel with
      | zero => simp at hf
      | succ fuel =>
        rw [parseTermLoop, matchOperator_of_drop hd]
        simp [hop]

theorem parseTerm_total {l : List Token} (h : HasEnd l) :
    ∃ (node : ASTNode) (k : Nat), Consumed l k ∧
      ∀ (tokens : List Token) (p : Nat), tokens.drop p = l →
        parseTerm tokens p = some (node, p + k) := by
  obtain ⟨first, k1, hc1, hfac⟩ := parseFactor_total h
  obtain ⟨result, k2, hc2, hloop⟩ :=
    parseTermLoop_total (l.drop k1).length (l.drop k1) (Nat.le_refl _) hc1.1 first
  refine ⟨result, k1 + k2, Consumed.add hc1 hc2, ?_⟩
  intro tokens p hd
  have hd1 : tokens.drop (p + k1) = l.drop k1 := drop_add_of_drop k1 hd
  have hlt : (l.drop k1).length < tokens.length + 1 := by
    have := length_le_of_drop hd1
    omega
  rw [parseTerm, hfac tokens p hd]
  simp only []
  rw [hloop tokens (p + k1) _ hd1 hlt, Nat.add_assoc]

theorem parseDeclaration_total {l : List Token} (h : HasEnd l) :
    ∃ (node : ASTNode) (k : Nat), Consumed l k ∧ (node.isNull = false → 0 < k) ∧
      ∀ (tokens : List Token) (p : Nat), tokens.drop p = l →
        parseDeclaration tokens p = some (node, p + k) := by
  obtain ⟨t, r, rfl⟩ := h.exists_cons
  by_cases hk : t.type = TokenType.INT
  · have hE : t.type ≠ TokenType.END := by rw [hk]; decide
    have hc0 : Consumed (t :: r) 1 := Consumed.succ hE (Consumed.zero (h.tail hE))
    obtain ⟨name, k1, hc1, hname⟩ := consume_total (h.tail hE) TokenType.IDENTIFIER
    obtain ⟨tok2, k2, hc2, hassign⟩ := consume_total hc1.1 TokenType.ASSIGN
    obtain ⟨expression, k3, hc3, hexpr⟩ := parseTerm_total hc2.1
    obtain ⟨tok4, k4, hc4, hsemi⟩ := consume_total hc3.1 TokenType.SEMICOLON
    refine ⟨ASTNode.DeclarationNode t.value
      (ASTNode.AssignmentNode (ASTNode.IdentifierNode name.value) expression),
      1 + k1 + k2 + k3 + k4, ?_, fun _ => by omega, ?_⟩
    · have hc1' : Consumed ((t :: r).drop 1) k1 := by simpa using hc1
      exact ((hc0.add hc1').add (by simpa [List.drop_drop, Nat.add_comm] using hc2)).add
        (by simpa [List.drop_drop, Nat.add_comm, Nat.add_left_comm] using hc3) |>.add
        (by simpa [List.drop_drop, Nat.add_comm, Nat.add_left_comm] using hc4)
    · intro tokens p hd
      have hd1 := drop_succ_of_drop_cons hd
      have hd2 : tokens.drop (p + 1 + k1) = r.drop k1 := drop_add_of_drop k1 hd1
      have hd3 : tokens.drop (p + 1 + k1 + k2) = (r.drop k1).drop k2 :=
        drop_add_of_drop k2 hd2
      have hd4 : tokens.drop (p + 1 + k1 + k2 + k3) = ((r.drop k1).drop k2).drop k3 :=
        drop_add_of_drop k3 hd3
      rw [parseDeclaration, matchType_of_drop hd, if_pos ⟨hE, hk⟩]
      simp only []
      rw [previous_succ_of_drop hd, hname tokens (p + 1) hd1]
      simp only []
      rw [hassign tokens (p + 1 + k1) hd2]
      simp only []
      rw [parseExpression, hexpr tokens (p + 1 + k1 + k2) hd3]
      simp only []
      rw [hsemi tokens (p + 1 + k1 + k2 + k3) hd4]
      simp [Nat.add_assoc]
  · refine ⟨ASTNode.nullptr, 0, Consumed.zero h, fun hn => by simp [ASTNode.isNull] at hn, ?_⟩
    intro tokens p hd
    rw [parseDeclaration, matchType_of_drop hd]
    simp [hk]

theorem parseLoop_total :
    ∀ (n : Nat) (l : List Token), l.length ≤ n → HasEnd l →
      ∃ (declarations : List ASTNode) (k : Nat), Consumed l k ∧
        ∀ (tokens : List Token) (p fuel : Nat) (statements : List ASTNode),
          tokens.drop p = l → l.length < fuel →
          parseLoop tokens fuel p statements = some (statements ++ declarations, p + k) := by
  intro n
  induction n with
  | zero =>
    intro l hl h
    obtain ⟨t, r, rfl⟩ := h.exists_cons
    simp at hl
  | succ n ih =>
    intro l hl h
    obtain ⟨t, r, hl'⟩ := h.exists_cons
    by_cases hE : t.type = TokenType.END
    · refine ⟨[], 0, Consumed.zero h, ?_⟩
      intro tokens p fuel statements hd hf
      cases fuel with
      | zero => simp at hf
      | succ fuel =>
        rw [hl'] at hd
        rw [parseLoop, isAtEnd_of_drop hd]
        simp [hE]
    · obtain ⟨stmt, k1, hc1, hpos, hdecl⟩ := parseDeclaration_total h
      have hb : (t.type == TokenType.END) = false := by simpa using hE
      cases hnull : stmt.isNull with
      | true =>
        refine ⟨[], k1, hc1, ?_⟩
        intro tokens p fuel statements hd hf
        cases fuel with
        | zero => simp at hf
        | succ fuel =>
          rw [parseLoop, isAtEnd_of_drop (hl' ▸ hd), hb]
          simp only []
          rw [hdecl tokens p hd]
          simp [hnull]
      | false =>
        have hk1 := hpos hnull
        have hlen := hc1.length_drop
        obtain ⟨rest, k2, hc2, hloop⟩ := ih (l.drop k1) (by omega) hc1.1
        refine ⟨stmt :: rest, k1 + k2, hc1.add hc2, ?_⟩
        intro tokens p fuel statements hd hf
        cases fuel with
        | zero => simp at hf
        | succ fuel =>
          have hd1 : tokens.drop (p + k1) = l.drop k1 := drop_add_of_drop k1 hd
          rw [parseLoop, isAtEnd_of_drop (hl' ▸ hd), hb]
          simp only []
          rw [hdecl tokens p hd]
          simp only [hnull, Bool.false_eq_true, if_false]
          rw [hloop tokens (p + k1) fuel _ hd1 (by omega)]
          simp [Nat.add_assoc]

theorem tokenize_HasEnd (source : String) :
    ∃ tokens, tokenize source = some tokens ∧ HasEnd tokens :=
  ⟨_, tokenize_eq_scan source, ⟨TokenType.END, ""⟩, by simp, rfl⟩

/-- The loop of `parse`, started at cursor 0 with the fuel that `parse` supplies, returns
on a token sequence that contains `END`. -/
theorem parseLoop_returns {tokens : List Token} (h : HasEnd tokens) :
    ∃ (statements : List ASTNode) (position : Nat),
      parseLoop tokens (tokens.length + 1) 0 [] = some (statements, position) ∧
      parse tokens = some statements ∧
      ∀ t ∈ tokens.take position, t.type ≠ TokenType.END := by
  obtain ⟨ds, k, hc, hloop⟩ := parseLoop_total tokens.length tokens (Nat.le_refl _) h
  have h1 := hloop tokens 0 (tokens.length + 1) [] rfl (Nat.lt_succ_self _)
  simp only [List.nil_append, Nat.zero_add] at h1
  refine ⟨ds, k, h1, ?_, hc.2⟩
  rw [parse, h1]

/-- C4: on a token sequence that contains an `END` token `parse` returns, with every read
of `peek` and of `previous` inside the vector (the model yields `none` on a read outside
it), and the cursor ends on or before the first `END` token; in particular `parse`
returns on the tokens of every source string, the malformed `"int x = ;"` included. -/
theorem parse_total (tokens : List Token) (h : ∃ t ∈ tokens, t.type = TokenType.END) :
    (∃ (statements : List ASTNode) (position : Nat),
      parseLoop tokens (tokens.length + 1) 0 [] = some (statements, position) ∧
      parse tokens = some statements ∧
      ∀ t ∈ tokens.take position, t.type ≠ TokenType.END) ∧
    (∀ source : String, ∃ (ts : List Token) (statements : List ASTNode),
      tokenize source = some ts ∧ parse ts = some statements ∧
      compile source = some statements) ∧
    (compile "int x = ;").isSome = true := by
  refine ⟨parseLoop_returns h, ?_, by decide⟩
  intro source
  obtain ⟨ts, hts, hE⟩ := tokenize_HasEnd source
  obtain ⟨statements, _, _, hp, _⟩ := parseLoop_returns hE
  refine ⟨ts, statements, hts, hp, ?_⟩
  rw [compile, hts]
  exact hp

/-- The witness of C4: the tokens of the malformed source `"int x = ;"`. -/
theorem parse_total_witness :
    (∃ (statements : List ASTNode) (position : Nat),
      parseLoop [⟨TokenType.INT, "int"⟩, ⟨TokenType.IDENTIFIER, "x"⟩, ⟨TokenType.ASSIGN, "="⟩,
        ⟨TokenType.SEMICOLON, ";"⟩, ⟨TokenType.END, ""⟩] (5 + 1) 0 [] =
          some (statements, position) ∧
      parse [⟨TokenType.INT, "int"⟩, ⟨TokenType.IDENTIFIER, "x"⟩, ⟨TokenType.ASSIGN, "="⟩,
        ⟨TokenType.SEMICOLON, ";"⟩, ⟨TokenType.END, ""⟩] = some statements ∧
      ∀ t ∈ List.take position ([⟨TokenType.INT, "int"⟩, ⟨TokenType.IDENTIFIER, "x"⟩,
        ⟨TokenType.ASSIGN, "="⟩, ⟨TokenType.SEMICOLON, ";"⟩, ⟨TokenType.END, ""⟩] :
          List Token), t.type ≠ TokenType.END) ∧
    (∀ source : String, ∃ (ts : List Token) (statements : List ASTNode),
      tokenize source = some ts ∧ parse ts = some statements ∧
      compile source = some statements) ∧
    (compile "int x = ;").isSome = true :=
  parse_total [⟨TokenType.INT, "int"⟩, ⟨TokenType.IDENTIFIER, "x"⟩, ⟨TokenType.ASSIGN, "="⟩,
    ⟨TokenType.SEMICOLON, ";"⟩, ⟨TokenType.END, ""⟩] ⟨⟨TokenType.END, ""⟩, by decide, rfl⟩

/-- C9, the code at the failing input: on the tokens of `"int x = ;"` the methods
`parseTerm` and `parseExpression` return the absent node at the semicolon, but
`parseDeclaration` returns a `Declaration` node for `x` that holds the absent node as its
expression, and `parse` returns that declaration and goes on to the next statement. -/
theorem parse_missing_expression :
    tokenize "int x = ;" =
      some [⟨TokenType.INT, "int"⟩, ⟨TokenType.IDENTIFIER, "x"⟩, ⟨TokenType.ASSIGN, "="⟩,
        ⟨TokenType.SEMICOLON, ";"⟩, ⟨TokenType.END, ""⟩] ∧
    parseFactor [⟨TokenType.INT, "int"⟩, ⟨TokenType.IDENTIFIER, "x"⟩, ⟨TokenType.ASSIGN, "="⟩,
        ⟨TokenType.SEMICOLON, ";"⟩, ⟨TokenType.END, ""⟩] 3 = some (ASTNode.nullptr, 3) ∧
    parseTerm [⟨TokenType.INT, "int"⟩, ⟨TokenType.IDENTIFIER, "x"⟩, ⟨TokenType.ASSIGN, "="⟩,
        ⟨TokenType.SEMICOLON, ";"⟩, ⟨TokenType.END, ""⟩] 3 = some (ASTNode.nullptr, 3) ∧
    parseExpression [⟨TokenType.INT, "int"⟩, ⟨TokenType.IDENTIFIER, "x"⟩,
        ⟨TokenType.ASSIGN, "="⟩, ⟨TokenType.SEMICOLON, ";"⟩, ⟨TokenType.END, ""⟩] 3 =
      some (ASTNode.nullptr, 3) ∧
    parseDeclaration [⟨TokenType.INT, "int"⟩, ⟨TokenType.IDENTIFIER, "x"⟩,
        ⟨TokenType.ASSIGN, "="⟩, ⟨TokenType.SEMICOLON, ";"⟩, ⟨TokenType.END, ""⟩] 0 =
      some (ASTNode.DeclarationNode "int"
        (ASTNode.AssignmentNode (ASTNode.IdentifierNode "x") ASTNode.nullptr), 4) ∧
    compile "int x = ;" =
      some [ASTNode.DeclarationNode "int"
        (ASTNode.AssignmentNode (ASTNode.IdentifierNode "x") ASTNode.nullptr)] ∧
    compile "int x = ; int y = 2;" =
      some [ASTNode.DeclarationNode "int"
          (ASTNode.AssignmentNode (ASTNode.IdentifierNode "x") ASTNode.nullptr),
        ASTNode.DeclarationNode "int"
          (ASTNode.AssignmentNode (ASTNode.IdentifierNode "y") (ASTNode.NumberNode "2"))] := by
  decide

/-! ## Declaration blocks with one token missing -/

theorem isFactor_type {t : Token} (h : isFactor t = true) :
    t.type = TokenType.NUMBER ∨ t.type = TokenType.IDENTIFIER := by
  simpa [isFactor] using h

/-- The method `parseDeclaration` on a block without its `SEMICOLON`, followed by a token
that is `INT` or `END`. -/
theorem parseDeclaration_withoutSemicolon {tokens : List Token} {p : Nat}
    {b : DeclarationBlock} {t : Token} {r : List Token}
    (h : tokens.drop p = b.withoutSemicolon ++ t :: r) (hb : b.wellFormed = true)
    (ht : t.type = TokenType.INT ∨ t.type = TokenType.END) :
    parseDeclaration tokens p = some (b.node, p + b.withoutSemicolon.length) := by
  simp only [DeclarationBlock.wellFormed, Bool.and_eq_true, beq_iff_eq] at hb
  obtain ⟨⟨⟨⟨⟨hk, hn⟩, ha⟩, hf⟩, hr⟩, _⟩ := hb
  have h0 : tokens.drop p = b.keyword :: b.name :: b.assign :: b.first ::
      (operands b.rest ++ t :: r) := by
    simpa [DeclarationBlock.withoutSemicolon] using h
  have h1 := drop_succ_of_drop_cons h0
  have h2 := drop_succ_of_drop_cons h1
  have h3 := drop_succ_of_drop_cons h2
  have h4 : tokens.drop (p + 1 + 1 + 1 + 1 + 2 * b.rest.length) = t :: r := by
    rw [drop_add_of_drop _ (drop_succ_of_drop_cons h3), ← length_operands]
    simp
  have hstop : isOperator t = false := by
    rcases ht with ht | ht <;> simp [isOperator, ht]
  have hsemi : ¬ (t.type ≠ TokenType.END ∧ t.type = TokenType.SEMICOLON) := by
    rcases ht with ht | ht <;> simp [ht]
  unfold parseDeclaration
  rw [matchType_of_drop h0]
  simp only [hk, ne_eq, not_false_eq_true, and_self, if_true, reduceCtorEq]
  rw [previous_succ_of_drop h0, consume_of_drop h1]
  simp only [hn, ne_eq, not_false_eq_true, and_self, if_true, reduceCtorEq]
  rw [consume_of_drop h2]
  simp only [ha, ne_eq, not_false_eq_true, and_self, if_true, reduceCtorEq]
  rw [parseExpression, parseTerm_operands h3 hf hr hstop]
  simp only []
  rw [consume_of_drop h4, if_neg hsemi]
  simp [DeclarationBlock.node, DeclarationBlock.withoutSemicolon, length_operands]
  omega

/-- The method `parseDeclaration` on a block without its `ASSIGN`. -/
theorem parseDeclaration_withoutAssign {tokens : List Token} {p : Nat}
    {b : DeclarationBlock} {tail : List Token}
    (h : tokens.drop p = b.withoutAssign ++ tail) (hb : b.wellFormed = true) :
    parseDeclaration tokens p = some (b.node, p + b.withoutAssign.length) := by
  simp only [DeclarationBlock.wellFormed, Bool.and_eq_true, beq_iff_eq] at hb
  obtain ⟨⟨⟨⟨⟨hk, hn⟩, _⟩, hf⟩, hr⟩, hs⟩ := hb
  have h0 : tokens.drop p = b.keyword :: b.name :: b.first ::
      (operands b.rest ++ b.semicolon :: tail) := by
    simpa [DeclarationBlock.withoutAssign] using h
  have h1 := drop_succ_of_drop_cons h0
  have h2 := drop_succ_of_drop_cons h1
  have h4 : tokens.drop (p + 1 + 1 + 1 + 2 * b.rest.length) = b.semicolon :: tail := by
    rw [drop_add_of_drop _ (drop_succ_of_drop_cons h2), ← length_operands]
    simp
  have hstop : isOperator b.semicolon = false := by simp [isOperator, hs]
  have hassign : ¬ (b.first.type ≠ TokenType.END ∧ b.first.type = TokenType.ASSIGN) := by
    rcases isFactor_type hf with h' | h' <;> simp [h']
  unfold parseDeclaration
  rw [matchType_of_drop h0]
  simp only [hk, ne_eq, not_false_eq_true, and_self, if_true, reduceCtorEq]
  rw [previous_succ_of_drop h0, consume_of_drop h1]
  simp only [hn, ne_eq, not_false_eq_true, and_self, if_true, reduceCtorEq]
  rw [consume_of_drop h2, if_neg hassign]
  simp only []
  rw [parseExpression, parseTerm_operands h2 hf hr hstop]
  simp only []
  rw [consume_of_drop h4]
  simp only [hs, ne_eq, not_false_eq_true, and_self, if_true, reduceCtorEq]
  simp [DeclarationBlock.node, DeclarationBlock.withoutAssign, length_operands]
  omega

/-- The method `parseDeclaration` on a block without its `IDENTIFIER`: the target takes
the empty text of the placeholder token. -/
theorem parseDeclaration_withoutName {tokens : List Token} {p : Nat}
    {b : DeclarationBlock} {tail : List Token}
    (h : tokens.drop p = b.withoutName ++ tail) (hb : b.wellFormed = true) :
    parseDeclaration tokens p = some (b.nodeWithoutName, p + b.withoutName.length) := by
  simp only [DeclarationBlock.wellFormed, Bool.and_eq_true, beq_iff_eq] at hb
  obtain ⟨⟨⟨⟨⟨hk, _⟩, ha⟩, hf⟩, hr⟩, hs⟩ := hb
  have h0 : tokens.drop p = b.keyword :: b.assign :: b.first ::
      (operands b.rest ++ b.semicolon :: tail) := by
    simpa [DeclarationBlock.withoutName] using h
  have h1 := drop_succ_of_drop_cons h0
  have h2 := drop_succ_of_drop_cons h1
  have h4 : tokens.drop (p + 1 + 1 + 1 + 2 * b.rest.length) = b.semicolon :: tail := by
    rw [drop_add_of_drop _ (drop_succ_of_drop_cons h2), ← length_operands]
    simp
  have hstop : isOperator b.semicolon = false := by simp [isOperator, hs]
  have hname : ¬ (b.assign.type ≠ TokenType.END ∧ b.assign.type = TokenType.IDENTIFIER) := by
    simp [ha]
  unfold parseDeclaration
  rw [matchType_of_drop h0]
  simp only [hk, ne_eq, not_false_eq_true, and_self, if_true, reduceCtorEq]
  rw [previous_succ_of_drop h0, consume_of_drop h1, if_neg hname]
  simp only []
  rw [consume_of_drop h1]
  simp only [ha, ne_eq, not_false_eq_true, and_self, if_true, reduceCtorEq]
  rw [parseExpression, parseTerm_operands h2 hf hr hstop]
  simp only []
  rw [consume_of_drop h4]
  simp only [hs, ne_eq, not_false_eq_true, and_self, if_true, reduceCtorEq]
  simp [DeclarationBlock.nodeWithoutName, DeclarationBlock.withoutName, length_operands,
    Token.placeholder]
  omega

/-- When `parseDeclaration` returns a node for the first `k` tokens of a sequence whose first
token is `INT`, `parse` returns that node followed by the declarations of the remaining
tokens, which do not depend on the tokens before them. -/
theorem parse_after_declaration (front rest : List Token) (first : Token)
    (tail : List Token) {node : ASTNode} {declarations : List ASTNode} {k : Nat}
    (hfront : front = first :: tail) (hfirst : first.type = TokenType.INT)
    (hdecl : parseDeclaration (front ++ rest) 0 = some (node, 0 + front.length))
    (hnode : node.isNull = false)
    (hrest : ∀ (tokens : List Token) (p fuel : Nat) (statements : List ASTNode),
      tokens.drop p = rest → rest.length < fuel →
      parseLoop tokens fuel p statements = some (statements ++ declarations, p + k)) :
    parse (front ++ rest) = some (node :: declarations) := by
  have hhead : (front ++ rest).drop 0 = first :: (tail ++ rest) := by simp [hfront]
  have hE : (first.type == TokenType.END) = false := by rw [hfirst]; rfl
  have hd : (front ++ rest).drop (0 + front.length) = rest := by simp
  have hlt : rest.length < (front ++ rest).length := by
    simp only [hfront, List.length_append, List.length_cons]
    omega
  rw [parse, parseLoop, isAtEnd_of_drop hhead, hE]
  simp only []
  rw [hdecl]
  simp only [hnode, Bool.false_eq_true, if_false]
  rw [hrest _ _ _ _ hd hlt]
  simp

/-- C10: for a well-formed declaration block `D` and a token sequence `rest` that starts
with `INT` or `END` and contains `END`, deleting the `SEMICOLON`, the `ASSIGN` or the
`IDENTIFIER` of `D` does not change what `parse` returns on `D ++ rest`, except that
without the `IDENTIFIER` the target of the first declaration is `Identifier("")`. -/
theorem consume_mismatch_recovery (b : DeclarationBlock) (t : Token) (r : List Token)
    (hb : b.wellFormed = true) (ht : t.type = TokenType.INT ∨ t.type = TokenType.END)
    (hend : ∃ e ∈ t :: r, e.type = TokenType.END) :
    ∃ declarations : List ASTNode,
      parse (b.tokens ++ t :: r) = some (b.node :: declarations) ∧
      parse (b.withoutSemicolon ++ t :: r) = some (b.node :: declarations) ∧
      parse (b.withoutAssign ++ t :: r) = some (b.node :: declarations) ∧
      parse (b.withoutName ++ t :: r) = some (b.nodeWithoutName :: declarations) := by
  obtain ⟨declarations, k, _, hloop⟩ := parseLoop_total (t :: r).length (t :: r)
    (Nat.le_refl _) hend
  have hk : b.keyword.type = TokenType.INT := by
    simp only [DeclarationBlock.wellFormed, Bool.and_eq_true, beq_iff_eq] at hb
    exact hb.1.1.1.1.1
  refine ⟨declarations, ?_, ?_, ?_, ?_⟩
  · exact parse_after_declaration b.tokens (t :: r) b.keyword _ rfl hk
      (parseDeclaration_block
        (show (b.tokens ++ t :: r).drop 0 = b.tokens ++ t :: r from rfl) hb) rfl hloop
  · exact parse_after_declaration b.withoutSemicolon (t :: r) b.keyword _ rfl hk
      (parseDeclaration_withoutSemicolon
        (show (b.withoutSemicolon ++ t :: r).drop 0 = b.withoutSemicolon ++ t :: r from rfl)
        hb ht) rfl hloop
  · exact parse_after_declaration b.withoutAssign (t :: r) b.keyword _ rfl hk
      (parseDeclaration_withoutAssign
        (show (b.withoutAssign ++ t :: r).drop 0 = b.withoutAssign ++ t :: r from rfl) hb)
      rfl hloop
  · exact parse_after_declaration b.withoutName (t :: r) b.keyword _ rfl hk
      (parseDeclaration_withoutName
        (show (b.withoutName ++ t :: r).drop 0 = b.withoutName ++ t :: r from rfl) hb)
      rfl hloop

/-- The witness of C10: the block `int x = 1 ;` before the tokens of `int y = 2 ;`. -/
theorem consume_mismatch_recovery_witness :
    ∃ declarations : List ASTNode,
      parse ([⟨TokenType.INT, "int"⟩, ⟨TokenType.IDENTIFIER, "x"⟩, ⟨TokenType.ASSIGN, "="⟩,
          ⟨TokenType.NUMBER, "1"⟩, ⟨TokenType.SEMICOLON, ";"⟩] ++
        ⟨TokenType.INT, "int"⟩ :: [⟨TokenType.IDENTIFIER, "y"⟩, ⟨TokenType.ASSIGN, "="⟩,
          ⟨TokenType.NUMBER, "2"⟩, ⟨TokenType.SEMICOLON, ";"⟩, ⟨TokenType.END, ""⟩]) =
        some (ASTNode.DeclarationNode "int" (ASTNode.AssignmentNode
          (ASTNode.IdentifierNode "x") (ASTNode.NumberNode "1")) :: declarations) ∧
      parse ([⟨TokenType.INT, "int"⟩, ⟨TokenType.IDENTIFIER, "x"⟩, ⟨TokenType.ASSIGN, "="⟩,
          ⟨TokenType.NUMBER, "1"⟩] ++
        ⟨TokenType.INT, "int"⟩ :: [⟨TokenType.IDENTIFIER, "y"⟩, ⟨TokenType.ASSIGN, "="⟩,
          ⟨TokenType.NUMBER, "2"⟩, ⟨TokenType.SEMICOLON, ";"⟩, ⟨TokenType.END, ""⟩]) =
        some (ASTNode.DeclarationNode "int" (ASTNode.AssignmentNode
          (ASTNode.IdentifierNode "x") (ASTNode.NumberNode "1")) :: declarations) ∧
      parse ([⟨TokenType.INT, "int"⟩, ⟨TokenType.IDENTIFIER, "x"⟩,
          ⟨TokenType.NUMBER, "1"⟩, ⟨TokenType.SEMICOLON, ";"⟩] ++
        ⟨TokenType.INT, "int"⟩ :: [⟨TokenType.IDENTIFIER, "y"⟩, ⟨TokenType.ASSIGN, "="⟩,
          ⟨TokenType.NUMBER, "2"⟩, ⟨TokenType.SEMICOLON, ";"⟩, ⟨TokenType.END, ""⟩]) =
        some (ASTNode.DeclarationNode "int" (ASTNode.AssignmentNode
          (ASTNode.IdentifierNode "x") (ASTNode.NumberNode "1")) :: declarations) ∧
      parse ([⟨TokenType.INT, "int"⟩, ⟨TokenType.ASSIGN, "="⟩,
          ⟨TokenType.NUMBER, "1"⟩, ⟨TokenType.SEMICOLON, ";"⟩] ++
        ⟨TokenType.INT, "int"⟩ :: [⟨TokenType.IDENTIFIER, "y"⟩, ⟨TokenType.ASSIGN, "="⟩,
          ⟨TokenType.NUMBER, "2"⟩, ⟨TokenType.SEMICOLON, ";"⟩, ⟨TokenType.END, ""⟩]) =
        some (ASTNode.DeclarationNode "int" (ASTNode.AssignmentNode
          (ASTNode.IdentifierNode "") (ASTNode.NumberNode "1")) :: declarations) :=
  consume_mismatch_recovery
    ⟨⟨TokenType.INT, "int"⟩, ⟨TokenType.IDENTIFIER, "x"⟩, ⟨TokenType.ASSIGN, "="⟩,
      ⟨TokenType.NUMBER, "1"⟩, [], ⟨TokenType.SEMICOLON, ";"⟩⟩
    ⟨TokenType.INT, "int"⟩
    [⟨TokenType.IDENTIFIER, "y"⟩, ⟨TokenType.ASSIGN, "="⟩, ⟨TokenType.NUMBER, "2"⟩,
      ⟨TokenType.SEMICOLON, ";"⟩, ⟨TokenType.END, ""⟩]
    (by decide) (Or.inl rfl) ⟨⟨TokenType.END, ""⟩, by decide, rfl⟩

/-! ## The parsing primitives at a cursor inside the vector -/

theorem drop_of_lt {tokens : List Token} {position : Nat} (h : position < tokens.length) :
    tokens.drop position = tokens[position] :: tokens.drop (position + 1) :=
  List.drop_eq_getElem_cons h

/-- C13: at a cursor inside the vector, `match(k)` reports true and moves the cursor one
token on when the token under the cursor has kind `k` and `k` is not `END`; otherwise, and
always for `k = END`, it reports false and leaves the cursor where it is. -/
theorem matchType_in_bounds (tokens : List Token) (position : Nat) (type : TokenType)
    (h : position < tokens.length) :
    matchType tokens position type =
      some (if tokens[position].type = type ∧ type ≠ TokenType.END then (true, position + 1)
        else (false, position)) ∧
    matchType tokens position TokenType.END = some (false, position) := by
  have hd := drop_of_lt h
  refine ⟨?_, ?_⟩
  · rw [matchType_of_drop hd]
    by_cases hT : tokens[position].type = type
    · subst hT
      by_cases hE : tokens[position].type = TokenType.END <;> simp [hE]
    · simp [hT]
  · rw [matchType_of_drop hd]
    by_cases hE : tokens[position].type = TokenType.END <;> simp [hE]

/-- The witness of C13: the tokens of `"1"`, at the `NUMBER` and at the `END`. -/
theorem matchType_in_bounds_witness :
    matchType [⟨TokenType.NUMBER, "1"⟩, ⟨TokenType.END, ""⟩] 0 TokenType.NUMBER =
      some (true, 1) ∧
    matchType [⟨TokenType.NUMBER, "1"⟩, ⟨TokenType.END, ""⟩] 0 TokenType.END =
      some (false, 0) :=
  matchType_in_bounds [⟨TokenType.NUMBER, "1"⟩, ⟨TokenType.END, ""⟩] 0 TokenType.NUMBER
    (by decide)

/-- C13, the failing input: with the cursor on an `END` token, `match(END)` reports false
and does not move. -/
theorem matchType_END_false :
    matchType [⟨TokenType.NUMBER, "1"⟩, ⟨TokenType.END, ""⟩] 1 TokenType.END =
      some (false, 1) ∧
    ¬ matchType [⟨TokenType.NUMBER, "1"⟩, ⟨TokenType.END, ""⟩] 1 TokenType.END =
      some (true, 2) := by
  decide

/-- C14: at a cursor inside the vector and for a kind `k` other than `END`, `consume(k)`
returns the token under the cursor and moves one token on when that token has kind `k`;
otherwise it returns the placeholder token, whose text is empty, and leaves the cursor
where it is.  In both cases it returns. -/
theorem consume_in_bounds (tokens : List Token) (position : Nat) (type : TokenType)
    (h : position < tokens.length) (hk : type ≠ TokenType.END) :
    consume tokens position type =
      some (if tokens[position].type = type then (tokens[position], position + 1)
        else (Token.placeholder, position)) ∧
    Token.placeholder.value = "" := by
  have hd := drop_of_lt h
  refine ⟨?_, rfl⟩
  rw [consume_of_drop hd]
  by_cases hT : tokens[position].type = type
  · have hE : tokens[position].type ≠ TokenType.END := by rw [hT]; exact hk
    simp [hT, hE, hk]
  · simp [hT]

/-- The witness of C14: `consume(IDENTIFIER)` on the tokens of `"x ="` at cursor 0. -/
theorem consume_in_bounds_witness :
    consume [⟨TokenType.IDENTIFIER, "x"⟩, ⟨TokenType.ASSIGN, "="⟩, ⟨TokenType.END, ""⟩] 0
        TokenType.IDENTIFIER = some (⟨TokenType.IDENTIFIER, "x"⟩, 1) ∧
    Token.placeholder.value = "" :=
  consume_in_bounds
    [⟨TokenType.IDENTIFIER, "x"⟩, ⟨TokenType.ASSIGN, "="⟩, ⟨TokenType.END, ""⟩] 0
    TokenType.IDENTIFIER (by decide) (by decide)

/-- C15: at a cursor inside the vector, `parseFactor` returns `Number(text)` on a `NUMBER`
token and `Identifier(text)` on an `IDENTIFIER` token, moving one token on; on a token of
any other kind it returns the absent node and leaves the cursor on that token. -/
theorem parseFactor_in_bounds (tokens : List Token) (position : Nat)
    (h : position < tokens.length) :
    parseFactor tokens position =
      some (if tokens[position].type = TokenType.NUMBER then
          (ASTNode.NumberNode tokens[position].value, position + 1)
        else if tokens[position].type = TokenType.IDENTIFIER then
          (ASTNode.IdentifierNode tokens[position].value, position + 1)
        else (ASTNode.nullptr, position)) := by
  have hd := drop_of_lt h
  rw [parseFactor_of_drop hd]
  by_cases hN : tokens[position].type = TokenType.NUMBER
  · simp [isFactor, leaf, hN]
  · by_cases hI : tokens[position].type = TokenType.IDENTIFIER
    · simp [isFactor, leaf, hI]
    · simp [isFactor, hN, hI]

/-- The witness of C15: the tokens of `"x ="`, with the cursor on the identifier. -/
theorem parseFactor_in_bounds_witness :
    parseFactor [⟨TokenType.IDENTIFIER, "x"⟩, ⟨TokenType.ASSIGN, "="⟩, ⟨TokenType.END, ""⟩] 0 =
      some (ASTNode.IdentifierNode "x", 1) :=
  parseFactor_in_bounds
    [⟨TokenType.IDENTIFIER, "x"⟩, ⟨TokenType.ASSIGN, "="⟩, ⟨TokenType.END, ""⟩] 0 (by decide)

/-! ## What a rule that returns has done

The statements of this section hold for every token vector and every cursor: a call that
returns has moved the cursor forward, has passed no `INT` token outside the keyword of a
declaration, and has built a tree of the expected shape. -/

theorem drop_nil_or_cons (tokens : List Token) (p : Nat) :
    tokens.drop p = [] ∨ ∃ t r, tokens.drop p = t :: r := by
  cases h : tokens.drop p with
  | nil => exact Or.inl rfl
  | cons t r => exact Or.inr ⟨t, r, rfl⟩

theorem peek_of_drop_nil {tokens : List Token} {p : Nat} (h : tokens.drop p = []) :
    peek tokens p = none :=
  getElem?_of_drop_nil h

theorem check_of_drop_nil {tokens : List Token} {p : Nat} (h : tokens.drop p = [])
    (type : TokenType) : check tokens p type = none := by
  simp [check, isAtEnd, peek_of_drop_nil h]

theorem matchType_of_drop_nil {tokens : List Token} {p : Nat} (h : tokens.drop p = [])
    (type : TokenType) : matchType tokens p type = none := by
  simp [matchType, check_of_drop_nil h]

theorem consume_of_drop_nil {tokens : List Token} {p : Nat} (h : tokens.drop p = [])
    (type : TokenType) : consume tokens p type = none := by
  simp [consume, check_of_drop_nil h]

theorem parseFactor_of_drop_nil {tokens : List Token} {p : Nat} (h : tokens.drop p = []) :
    parseFactor tokens p = none := by
  simp [parseFactor, matchType_of_drop_nil h]

theorem matchOperator_of_drop_nil {tokens : List Token} {p : Nat} (h : tokens.drop p = []) :
    matchOperator tokens p = none := by
  simp [matchOperator, matchType_of_drop_nil h]

theorem Skips_refl (tokens : List Token) (p : Nat) : Skips tokens p p :=
  ⟨0, rfl, by simp⟩

theorem Skips_step {tokens : List Token} {p : Nat} {t : Token} {r : List Token}
    (h : tokens.drop p = t :: r) (ht : t.type ≠ TokenType.INT) : Skips tokens p (p + 1) := by
  refine ⟨1, rfl, ?_⟩
  intro x hx
  rw [h] at hx
  have : x = t := by simpa using hx
  rw [this]
  exact ht

theorem Skips_trans {tokens : List Token} {p q r : Nat} (h1 : Skips tokens p q)
    (h2 : Skips tokens q r) : Skips tokens p r := by
  obtain ⟨k1, rfl, hk1⟩ := h1
  obtain ⟨k2, rfl, hk2⟩ := h2
  refine ⟨k1 + k2, by omega, ?_⟩
  intro x hx
  rw [List.take_add] at hx
  rcases List.mem_append.mp hx with h | h
  · exact hk1 x h
  · rw [List.drop_drop] at h
    exact hk2 x h

theorem Skips_le {tokens : List Token} {p q : Nat} (h : Skips tokens p q) : p ≤ q := by
  obtain ⟨k, rfl, _⟩ := h
  omega

/-- A call of `match` that returns has moved the cursor by one token or not at all. -/
theorem matchType_returns {tokens : List Token} {p q : Nat} {type : TokenType} {b : Bool}
    (h : matchType tokens p type = some (b, q)) :
    (b = false ∧ q = p) ∨
      (b = true ∧ q = p + 1 ∧ ∃ t r, tokens.drop p = t :: r ∧ t.type = type ∧
        t.type ≠ TokenType.END) := by
  rcases drop_nil_or_cons tokens p with hd | ⟨t, r, hd⟩
  · rw [matchType_of_drop_nil hd] at h
    cases h
  · rw [matchType_of_drop hd] at h
    by_cases hc : t.type ≠ TokenType.END ∧ t.type = type
    · rw [if_pos hc] at h
      cases h
      exact Or.inr ⟨rfl, rfl, t, r, hd, hc.2, hc.1⟩
    · rw [if_neg hc] at h
      cases h
      exact Or.inl ⟨rfl, rfl⟩

/-- A call of `consume` that returns has moved the cursor by one token or not at all. -/
theorem consume_returns {tokens : List Token} {p q : Nat} {type : TokenType} {tok : Token}
    (h : consume tokens p type = some (tok, q)) :
    (tok = Token.placeholder ∧ q = p) ∨
      (q = p + 1 ∧ ∃ r, tokens.drop p = tok :: r ∧ tok.type = type ∧
        tok.type ≠ TokenType.END) := by
  rcases drop_nil_or_cons tokens p with hd | ⟨t, r, hd⟩
  · rw [consume_of_drop_nil hd] at h
    cases h
  · rw [consume_of_drop hd] at h
    by_cases hc : t.type ≠ TokenType.END ∧ t.type = type
    · rw [if_pos hc] at h
      cases h
      exact Or.inr ⟨rfl, r, hd, hc.2, hc.1⟩
    · rw [if_neg hc] at h
      cases h
      exact Or.inl ⟨rfl, rfl⟩

theorem consume_skips {tokens : List Token} {p q : Nat} {type : TokenType} {tok : Token}
    (hty : type ≠ TokenType.INT) (h : consume tokens p type = some (tok, q)) :
    Skips tokens p q := by
  rcases consume_returns h with ⟨_, rfl⟩ | ⟨rfl, r, hd, ht, _⟩
  · exact Skips_refl tokens _
  · exact Skips_step hd (by rw [ht]; exact hty)

/-- A call of `advance` that returns has moved the cursor by one token or not at all. -/
theorem advance_returns {tokens : List Token} {p q : Nat} {tok : Token}
    (h : advance tokens p = some (tok, q)) : q = p ∨ q = p + 1 := by
  unfold advance at h
  cases he : isAtEnd tokens p with
  | none => rw [he] at h; cases h
  | some e =>
    rw [he] at h
    simp only [] at h
    cases hp : previous tokens (if e = true then p else p + 1) with
    | none => rw [hp] at h; cases h
    | some t =>
      rw [hp] at h
      cases h
      cases e
      · exact Or.inr (by simp)
      · exact Or.inl (by simp)

/-- A call of `parseFactor` that returns has built a leaf or the absent node. -/
theorem parseFactor_returns {tokens : List Token} {p q : Nat} {node : ASTNode}
    (h : parseFactor tokens p = some (node, q)) :
    Skips tokens p q ∧ node.isLeafOrNull = true := by
  rcases drop_nil_or_cons tokens p with hd | ⟨t, r, hd⟩
  · rw [parseFactor_of_drop_nil hd] at h
    cases h
  · rw [parseFactor_of_drop hd] at h
    by_cases hf : isFactor t = true
    · rw [if_pos hf] at h
      cases h
      refine ⟨Skips_step hd ?_, ?_⟩
      · rcases isFactor_type hf with h1 | h1 <;> rw [h1] <;> decide
      · unfold leaf
        split <;> rfl
    · rw [if_neg hf] at h
      cases h
      exact ⟨Skips_refl tokens p, rfl⟩

theorem matchOperator_returns {tokens : List Token} {p q : Nat} {b : Bool}
    (h : matchOperator tokens p = some (b, q)) :
    (b = false ∧ q = p) ∨
      (b = true ∧ q = p + 1 ∧ ∃ t r, tokens.drop p = t :: r ∧ isOperator t = true) := by
  rcases drop_nil_or_cons tokens p with hd | ⟨t, r, hd⟩
  · rw [matchOperator_of_drop_nil hd] at h
    cases h
  · rw [matchOperator_of_drop hd] at h
    by_cases hop : isOperator t = true
    · rw [if_pos hop] at h
      cases h
      exact Or.inr ⟨rfl, rfl, t, r, hd, hop⟩
    · rw [if_neg hop] at h
      cases h
      exact Or.inl ⟨rfl, rfl⟩

theorem isOperator_not_INT {t : Token} (h : isOperator t = true) :
    t.type ≠ TokenType.INT := by
  intro hE
  simp [isOperator, hE] at h

/-- The loop of `parseTerm`, when it returns, has kept the tree left-deep. -/
theorem parseTermLoop_returns (tokens : List Token) :
    ∀ (fuel p q : Nat) (node result : ASTNode),
      parseTermLoop tokens fuel p node = some (result, q) →
      Skips tokens p q ∧ (node.leftDeep = true → result.leftDeep = true) := by
  intro fuel
  induction fuel with
  | zero =>
    intro p q node result h
    simp [parseTermLoop] at h
  | succ fuel ih =>
    intro p q node result h
    rw [parseTermLoop] at h
    cases hm : matchOperator tokens p with
    | none => rw [hm] at h; cases h
    | some r1 =>
      obtain ⟨b, p1⟩ := r1
      rw [hm] at h
      rcases matchOperator_returns hm with ⟨rfl, rfl⟩ | ⟨rfl, rfl, t, r, hd, hop⟩
      · simp only [] at h
        cases h
        exact ⟨Skips_refl tokens _, fun hn => hn⟩
      · simp only [] at h
        rw [previous_succ_of_drop hd] at h
        simp only [] at h
        cases hf : parseFactor tokens (p + 1) with
        | none => rw [hf] at h; cases h
        | some r2 =>
          obtain ⟨right, p2⟩ := r2
          rw [hf] at h
          simp only [] at h
          obtain ⟨hs2, hleaf⟩ := parseFactor_returns hf
          obtain ⟨hs3, hdeep⟩ := ih _ _ _ _ h
          refine ⟨Skips_trans (Skips_step hd (isOperator_not_INT hop)) (Skips_trans hs2 hs3),
            ?_⟩
          intro hn
          apply hdeep
          simp [ASTNode.leftDeep, hn, hleaf]

theorem leftDeep_of_isLeafOrNull {node : ASTNode} (h : node.isLeafOrNull = true) :
    node.leftDeep = true := by
  cases node <;> simp [ASTNode.isLeafOrNull] at h <;> rfl

/-- A call of `parseTerm` that returns has built a left-deep tree. -/
theorem parseTerm_returns {tokens : List Token} {p q : Nat} {node : ASTNode}
    (h : parseTerm tokens p = some (node, q)) :
    Skips tokens p q ∧ node.leftDeep = true := by
  rw [parseTerm] at h
  cases hf : parseFactor tokens p with
  | none => rw [hf] at h; cases h
  | some r1 =>
    obtain ⟨first, p1⟩ := r1
    rw [hf] at h
    simp only [] at h
    obtain ⟨hs1, hleaf⟩ := parseFactor_returns hf
    obtain ⟨hs2, hdeep⟩ := parseTermLoop_returns tokens _ _ _ _ _ h
    exact ⟨Skips_trans hs1 hs2, hdeep (leftDeep_of_isLeafOrNull hleaf)⟩

/-- A call of `parseDeclaration` that returns has either returned the absent node without
moving, or has passed one `INT` token and no other and built a `Declaration` node that
holds the text of that token and a left-deep expression. -/
theorem parseDeclaration_shape {tokens : List Token} {p q : Nat} {node : ASTNode}
    (h : parseDeclaration tokens p = some (node, q)) :
    (node = ASTNode.nullptr ∧ q = p) ∨
      ∃ (t : Token) (r : List Token) (name : String) (expression : ASTNode),
        tokens.drop p = t :: r ∧ t.type = TokenType.INT ∧
        node = ASTNode.DeclarationNode t.value
          (ASTNode.AssignmentNode (ASTNode.IdentifierNode name) expression) ∧
        expression.leftDeep = true ∧ Skips tokens (p + 1) q := by
  rw [parseDeclaration] at h
  cases hm : matchType tokens p TokenType.INT with
  | none => rw [hm] at h; cases h
  | some r0 =>
    obtain ⟨b, p0⟩ := r0
    rw [hm] at h
    rcases matchType_returns hm with ⟨rfl, rfl⟩ | ⟨rfl, rfl, t, r, hd, hk, _⟩
    · simp only [] at h
      cases h
      exact Or.inl ⟨rfl, rfl⟩
    · simp only [] at h
      rw [previous_succ_of_drop hd] at h
      simp only [] at h
      cases h1 : consume tokens (p + 1) TokenType.IDENTIFIER with
      | none => rw [h1] at h; cases h
      | some r1 =>
        obtain ⟨name, p1⟩ := r1
        rw [h1] at h
        simp only [] at h
        cases h2 : consume tokens p1 TokenType.ASSIGN with
        | none => rw [h2] at h; cases h
        | some r2 =>
          obtain ⟨tok2, p2⟩ := r2
          rw [h2] at h
          simp only [] at h
          cases h3 : parseExpression tokens p2 with
          | none => rw [h3] at h; cases h
          | some r3 =>
            obtain ⟨expression, p3⟩ := r3
            rw [h3] at h
            simp only [] at h
            cases h4 : consume tokens p3 TokenType.SEMICOLON with
            | none => rw [h4] at h; cases h
            | some r4 =>
              obtain ⟨tok4, p4⟩ := r4
              rw [h4] at h
              simp only [] at h
              cases h
              obtain ⟨hs3, hdeep⟩ := parseTerm_returns h3
              refine Or.inr ⟨t, r, name.value, expression, hd, hk, rfl, hdeep, ?_⟩
              exact Skips_trans (consume_skips (by decide) h1)
                (Skips_trans (consume_skips (by decide) h2)
                  (Skips_trans hs3 (consume_skips (by decide) h4)))

theorem countINT_eq_zero {l : List Token} (h : ∀ x ∈ l, x.type ≠ TokenType.INT) :
    countINT l = 0 := by
  unfold countINT
  rw [List.countP_eq_zero]
  intro x hx
  simpa using h x hx

theorem mem_of_drop_cons {tokens : List Token} {p : Nat} {t : Token} {r : List Token}
    (h : tokens.drop p = t :: r) : t ∈ tokens := by
  have h1 : t ∈ tokens.drop p := by rw [h]; exact List.mem_cons_self _ _
  exact List.mem_of_mem_drop h1

/-- The loop of `parse`, when it returns, has appended one `Declaration` node for every
`INT` token that the cursor has passed.  Each node holds the text of an `INT` token of the
vector and a left-deep expression. -/
theorem parseLoop_shape (tokens : List Token) :
    ∀ (fuel p q : Nat) (statements result : List ASTNode),
      parseLoop tokens fuel p statements = some (result, q) →
      ∃ (k : Nat) (added : List ASTNode), q = p + k ∧ result = statements ++ added ∧
        added.length = countINT ((tokens.drop p).take k) ∧
        ∀ d ∈ added, ∃ t ∈ tokens, t.type = TokenType.INT ∧
          ∃ (name : String) (expression : ASTNode),
            d = ASTNode.DeclarationNode t.value
              (ASTNode.AssignmentNode (ASTNode.IdentifierNode name) expression) ∧
            expression.leftDeep = true := by
  intro fuel
  induction fuel with
  | zero =>
    intro p q statements result h
    simp [parseLoop] at h
  | succ fuel ih =>
    intro p q statements result h
    rw [parseLoop] at h
    cases he : isAtEnd tokens p with
    | none => rw [he] at h; cases h
    | some e =>
      rw [he] at h
      cases e with
      | true =>
        simp only [] at h
        cases h
        exact ⟨0, [], rfl, by simp, by simp [countINT], by simp⟩
      | false =>
        simp only [] at h
        cases hdecl : parseDeclaration tokens p with
        | none => rw [hdecl] at h; cases h
        | some r1 =>
          obtain ⟨stmt, p1⟩ := r1
          rw [hdecl] at h
          simp only [] at h
          rcases parseDeclaration_shape hdecl with ⟨rfl, rfl⟩ |
            ⟨t, r, name, expression, hd, hk, rfl, hdeep, k1, rfl, hk1⟩
          · simp only [ASTNode.isNull, if_true] at h
            cases h
            exact ⟨0, [], rfl, by simp, by simp [countINT], by simp⟩
          · simp only [ASTNode.isNull, Bool.false_eq_true, if_false] at h
            obtain ⟨k2, added, rfl, rfl, hlen, hall⟩ := ih _ _ _ _ h
            refine ⟨1 + k1 + k2, ASTNode.DeclarationNode t.value
              (ASTNode.AssignmentNode (ASTNode.IdentifierNode name) expression) :: added,
              by omega, by simp, ?_, ?_⟩
            · have hsplit : (tokens.drop p).take (1 + k1 + k2) =
                  t :: ((tokens.drop (p + 1)).take k1 ++
                    (tokens.drop (p + 1 + k1)).take k2) := by
                rw [List.take_add, List.take_add, hd]
                simp only [List.take_succ_cons, List.take_zero, List.singleton_append,
                  List.drop_succ_cons, List.drop_zero, List.cons_append, List.nil_append]
                rw [← drop_succ_of_drop_cons hd]
                have e : List.drop (1 + k1) (t :: List.drop (p + 1) tokens) =
                    List.drop (p + 1 + k1) tokens := by
                  rw [Nat.add_comm 1 k1, List.drop_succ_cons, List.drop_drop]
                rw [e]
              rw [hsplit]
              unfold countINT at hlen ⊢
              rw [List.countP_cons_of_pos _ _ (by simpa using hk), List.countP_append,
                ← hlen]
              have h0 := countINT_eq_zero hk1
              unfold countINT at h0
              rw [h0]
              simp
            · intro d hd'
              rcases List.mem_cons.mp hd' with rfl | hmem
              · exact ⟨t, mem_of_drop_cons hd, hk, name, expression, rfl, hdeep⟩
              · exact hall d hmem

/-- C16: the cursor never moves backward.  Whenever one of `match`, `consume`, `advance`,
`parseFactor`, `parseTerm`, `parseExpression` and `parseDeclaration` returns, the cursor
is at or after the position where the call started, and `parseDeclaration` has moved it
by at least one token when it returns a node; and when an `END` token is at or after the
cursor, the calls return (`advance` whenever the token under the cursor is not `END`). -/
theorem cursor_never_moves_backward (tokens : List Token) (position : Nat)
    (type : TokenType) :
    ((∀ b q, matchType tokens position type = some (b, q) → position ≤ q) ∧
      (∀ t q, consume tokens position type = some (t, q) → position ≤ q) ∧
      (∀ t q, advance tokens position = some (t, q) → position ≤ q) ∧
      (∀ n q, parseFactor tokens position = some (n, q) → position ≤ q) ∧
      (∀ n q, parseTerm tokens position = some (n, q) → position ≤ q) ∧
      (∀ n q, parseExpression tokens position = some (n, q) → position ≤ q) ∧
      (∀ n q, parseDeclaration tokens position = some (n, q) →
        position ≤ q ∧ (n.isNull = false → position < q))) ∧
    ((∃ t ∈ tokens.drop position, t.type = TokenType.END) →
      (matchType tokens position type).isSome = true ∧
      (consume tokens position type).isSome = true ∧
      (∀ t, peek tokens position = some t → t.type ≠ TokenType.END →
        advance tokens position = some (t, position + 1)) ∧
      (parseFactor tokens position).isSome = true ∧
      (parseTerm tokens position).isSome = true ∧
      (parseExpression tokens position).isSome = true ∧
      (parseDeclaration tokens position).isSome = true) := by
  refine ⟨⟨?_, ?_, ?_, ?_, ?_, ?_, ?_⟩, ?_⟩
  · intro b q h
    rcases matchType_returns h with ⟨_, rfl⟩ | ⟨_, rfl, _⟩ <;> omega
  · intro t q h
    rcases consume_returns h with ⟨_, rfl⟩ | ⟨rfl, _⟩ <;> omega
  · intro t q h
    rcases advance_returns h with rfl | rfl <;> omega
  · intro n q h
    exact Skips_le (parseFactor_returns h).1
  · intro n q h
    exact Skips_le (parseTerm_returns h).1
  · intro n q h
    exact Skips_le (parseTerm_returns h).1
  · intro n q h
    rcases parseDeclaration_shape h with ⟨rfl, rfl⟩ | ⟨t, r, name, e, _, _, rfl, _, hs⟩
    · exact ⟨Nat.le_refl _, fun hn => by simp [ASTNode.isNull] at hn⟩
    · have := Skips_le hs
      exact ⟨by omega, fun _ => by omega⟩
  · intro hend
    have hE : HasEnd (tokens.drop position) := hend
    obtain ⟨t, r, hd⟩ := hE.exists_cons
    obtain ⟨_, _, _, hc⟩ := consume_total hE type
    obtain ⟨_, _, _, hf⟩ := parseFactor_total hE
    obtain ⟨_, _, _, ht⟩ := parseTerm_total hE
    obtain ⟨_, _, _, _, hdecl⟩ := parseDeclaration_total hE
    refine ⟨?_, ?_, ?_, ?_, ?_, ?_, ?_⟩
    · rw [matchType_of_drop hd]
      rfl
    · rw [hc tokens position rfl]
      rfl
    · intro u hu hne
      rw [peek_of_drop hd] at hu
      cases hu
      exact advance_of_drop hd hne
    · rw [hf tokens position rfl]
      rfl
    · rw [ht tokens position rfl]
      rfl
    · rw [parseExpression, ht tokens position rfl]
      rfl
    · rw [hdecl tokens position rfl]
      rfl

/-- C18: every expression tree is left-deep.  On a token sequence that contains `END`,
`parse` returns trees in which the right child of every `BinaryOperation` node is a leaf
or absent; the same holds for every tree that `parseTerm` returns, and `parseTerm` returns
whenever an `END` token is at or after the cursor. -/
theorem parse_left_deep (tokens : List Token) (h : ∃ t ∈ tokens, t.type = TokenType.END) :
    (∃ statements, parse tokens = some statements ∧
      ∀ s ∈ statements, s.leftDeep = true) ∧
    (∀ position n q, parseTerm tokens position = some (n, q) → n.leftDeep = true) ∧
    (∀ position, (∃ t ∈ tokens.drop position, t.type = TokenType.END) →
      ∃ n q, parseTerm tokens position = some (n, q) ∧ n.leftDeep = true) := by
  refine ⟨?_, ?_, ?_⟩
  · obtain ⟨statements, position, hloop, hparse, _⟩ := parseLoop_returns h
    refine ⟨statements, hparse, ?_⟩
    obtain ⟨k, added, _, hres, _, hall⟩ := parseLoop_shape tokens _ _ _ _ _ hloop
    intro s hs
    rw [hres, List.nil_append] at hs
    obtain ⟨t, _, _, name, e, rfl, hdeep⟩ := hall s hs
    simp [ASTNode.leftDeep, hdeep]
  · intro position n q hp
    exact (parseTerm_returns hp).2
  · intro position hend
    obtain ⟨n, k, _, ht⟩ := parseTerm_total (l := tokens.drop position) hend
    exact ⟨n, position + k, ht tokens position rfl, (parseTerm_returns (ht tokens position rfl)).2⟩

/-- The witness of C18: the tokens of `"int a = 1 + 2 * 3;"`. -/
theorem parse_left_deep_witness :
    (∃ statements,
      parse [⟨TokenType.INT, "int"⟩, ⟨TokenType.IDENTIFIER, "a"⟩, ⟨TokenType.ASSIGN, "="⟩,
        ⟨TokenType.NUMBER, "1"⟩, ⟨TokenType.PLUS, "+"⟩, ⟨TokenType.NUMBER, "2"⟩,
        ⟨TokenType.MULTIPLY, "*"⟩, ⟨TokenType.NUMBER, "3"⟩, ⟨TokenType.SEMICOLON, ";"⟩,
        ⟨TokenType.END, ""⟩] = some statements ∧
      ∀ s ∈ statements, s.leftDeep = true) :=
  (parse_left_deep [⟨TokenType.INT, "int"⟩, ⟨TokenType.IDENTIFIER, "a"⟩,
    ⟨TokenType.ASSIGN, "="⟩, ⟨TokenType.NUMBER, "1"⟩, ⟨TokenType.PLUS, "+"⟩,
    ⟨TokenType.NUMBER, "2"⟩, ⟨TokenType.MULTIPLY, "*"⟩, ⟨TokenType.NUMBER, "3"⟩,
    ⟨TokenType.SEMICOLON, ";"⟩, ⟨TokenType.END, ""⟩] ⟨⟨TokenType.END, ""⟩, by decide, rfl⟩).1

theorem take_prefix_takeWhile {α : Type} (q : α → Bool) :
    ∀ (l : List α) (k : Nat), (∀ x ∈ l.take k, q x = true) → l.take k <+: l.takeWhile q := by
  intro l
  induction l with
  | nil => intro k _; simp
  | cons a l ih =>
    intro k h
    cases k with
    | zero => simp
    | succ k =>
      rw [List.take_succ_cons] at h ⊢
      have ha : q a = true := h a (List.mem_cons_self _ _)
      rw [List.takeWhile_cons, if_pos ha]
      exact (List.prefix_cons_inj a).mpr (ih k (fun x hx => h x (List.mem_cons_of_mem _ hx)))

theorem countINT_take_le {l : List Token} {k : Nat}
    (h : ∀ t ∈ l.take k, t.type ≠ TokenType.END) :
    countINT (l.take k) ≤ countINT (beforeEnd l) := by
  unfold countINT beforeEnd
  apply List.Sublist.countP_le
  apply List.IsPrefix.sublist
  apply take_prefix_takeWhile
  intro x hx
  simpa using h x hx

/-- C19: on a token sequence that contains `END`, every element that `parse` returns is a
`Declaration` node, their number is at most the number of `INT` tokens before the first
`END` token, and each holds the text of an `INT` token of the sequence as its type name;
on the tokens of a source string that type name is `"int"`. -/
theorem parse_declaration_count (tokens : List Token)
    (h : ∃ t ∈ tokens, t.type = TokenType.END) :
    (∃ statements, parse tokens = some statements ∧
      (∀ s ∈ statements, s.isDeclaration = true) ∧
      statements.length ≤ countINT (beforeEnd tokens) ∧
      (∀ s ∈ statements, ∃ t ∈ tokens, t.type = TokenType.INT ∧
        s.typeName = some t.value)) ∧
    (∀ source : String, ∃ (ts : List Token) (statements : List ASTNode),
      tokenize source = some ts ∧ parse ts = some statements ∧
      ∀ s ∈ statements, s.typeName = some "int") := by
  have key : ∀ (toks : List Token), HasEnd toks →
      ∃ statements, parse toks = some statements ∧
        (∀ s ∈ statements, s.isDeclaration = true) ∧
        statements.length ≤ countINT (beforeEnd toks) ∧
        (∀ s ∈ statements, ∃ t ∈ toks, t.type = TokenType.INT ∧
          s.typeName = some t.value) := by
    intro toks hE
    obtain ⟨statements, position, hloop, hparse, hno⟩ := parseLoop_returns hE
    obtain ⟨k, added, hq, hres, hlen, hall⟩ := parseLoop_shape toks _ _ _ _ _ hloop
    rw [List.nil_append] at hres
    have hk : position = k := by omega
    subst hk
    subst hres
    refine ⟨statements, hparse, ?_, ?_, ?_⟩
    · intro s hs
      obtain ⟨t, _, _, name, e, rfl, _⟩ := hall s hs
      rfl
    · rw [hlen]
      exact countINT_take_le hno
    · intro s hs
      obtain ⟨t, ht, hk, name, e, rfl, _⟩ := hall s hs
      exact ⟨t, ht, hk, rfl⟩
  refine ⟨key tokens h, ?_⟩
  intro source
  obtain ⟨ts, hts, hE⟩ := tokenize_HasEnd source
  obtain ⟨statements, hparse, _, _, htype⟩ := key ts hE
  refine ⟨ts, statements, hts, hparse, ?_⟩
  intro s hs
  obtain ⟨t, ht, hk, hname⟩ := htype s hs
  have hts2 := tokenize_eq_scan source
  rw [hts] at hts2
  cases hts2
  have hinv : Token.Invariant t := by
    rcases List.mem_append.mp ht with h1 | h1
    · exact scan_invariant _ t h1
    · have : t = ⟨TokenType.END, ""⟩ := by simpa using h1
      subst this
      decide
  rw [hname, hinv.1.mp hk]

/-- The witness of C19: the tokens of `"int x = 1;"`. -/
theorem parse_declaration_count_witness :
    ∃ statements,
      parse [⟨TokenType.INT, "int"⟩, ⟨TokenType.IDENTIFIER, "x"⟩, ⟨TokenType.ASSIGN, "="⟩,
        ⟨TokenType.NUMBER, "1"⟩, ⟨TokenType.SEMICOLON, ";"⟩, ⟨TokenType.END, ""⟩] =
        some statements ∧
      (∀ s ∈ statements, s.isDeclaration = true) ∧
      statements.length ≤ countINT (beforeEnd
        [⟨TokenType.INT, "int"⟩, ⟨TokenType.IDENTIFIER, "x"⟩, ⟨TokenType.ASSIGN, "="⟩,
          ⟨TokenType.NUMBER, "1"⟩, ⟨TokenType.SEMICOLON, ";"⟩, ⟨TokenType.END, ""⟩]) ∧
      (∀ s ∈ statements, ∃ t ∈ ([⟨TokenType.INT, "int"⟩, ⟨TokenType.IDENTIFIER, "x"⟩,
        ⟨TokenType.ASSIGN, "="⟩, ⟨TokenType.NUMBER, "1"⟩, ⟨TokenType.SEMICOLON, ";"⟩,
        ⟨TokenType.END, ""⟩] : List Token), t.type = TokenType.INT ∧
        s.typeName = some t.value) :=
  (parse_declaration_count [⟨TokenType.INT, "int"⟩, ⟨TokenType.IDENTIFIER, "x"⟩,
    ⟨TokenType.ASSIGN, "="⟩, ⟨TokenType.NUMBER, "1"⟩, ⟨TokenType.SEMICOLON, ";"⟩,
    ⟨TokenType.END, ""⟩] ⟨⟨TokenType.END, ""⟩, by decide, rfl⟩).1

/-! ## The texts of the tokens -/

theorem concatTexts_cons_data (t : Token) (ts : List Token) :
    (concatTexts (t :: ts)).data = t.value.data ++ (concatTexts ts).data := by
  simp [concatTexts, String.data_append]

theorem concatTexts_append_data (a b : List Token) :
    (concatTexts (a ++ b)).data = (concatTexts a).data ++ (concatTexts b).data := by
  induction a with
  | nil => simp [concatTexts]
  | cons t ts ih => simp [concatTexts_cons_data, ih]

theorem keep_of_isdigit {c : Char} (h : isdigit c = true) :
    isKept c = true := by
  simp [isKept, isdigit_not_isspace h, isUnrecognized, h]

theorem keep_of_isalpha {c : Char} (h : isalpha c = true) :
    isKept c = true := by
  simp [isKept, isalpha_not_isspace h, isUnrecognized, h]

theorem keep_of_isalnum {c : Char} (h : isalnum c = true) :
    isKept c = true := by
  simp only [isalnum, Bool.or_eq_true] at h
  rcases h with h | h
  · exact keep_of_isalpha h
  · exact keep_of_isdigit h

theorem filter_eq_self_of_forall {α : Type} (q : α → Bool) (l : List α)
    (h : ∀ x ∈ l, q x = true) : l.filter q = l :=
  List.filter_eq_self.mpr h

theorem filter_takeWhile_dropWhile {α : Type} (keep q : α → Bool) (l : List α)
    (h : ∀ x, q x = true → keep x = true) :
    l.filter keep = l.takeWhile q ++ (l.dropWhile q).filter keep := by
  conv_lhs => rw [← List.takeWhile_append_dropWhile q l]
  rw [List.filter_append, filter_eq_self_of_forall keep (l.takeWhile q)
    (fun x hx => h x (List.mem_takeWhile_imp hx))]

/-- The texts of the tokens of the unread text are its characters, without those that
are skipped. -/
theorem scan_texts :
    ∀ (n : Nat) (l : List Char), l.length ≤ n →
      (concatTexts (scan l)).data = l.filter isKept := by
  intro n
  induction n with
  | zero =>
    intro l hl
    have : l = [] := List.length_eq_zero.mp (Nat.le_zero.mp hl)
    subst this
    simp [scan_nil, concatTexts]
  | succ n ih =>
    intro l hl
    cases l with
    | nil => simp [scan_nil, concatTexts]
    | cons c cs =>
      have hcs : cs.length ≤ n := by simpa using hl
      have tail := ih cs hcs
      by_cases hsp : isspace c = true
      · rw [scan_space c cs hsp, tail,
          List.filter_cons_of_neg (by simp [isKept, hsp])]
      by_cases hdg : isdigit c = true
      · rw [scan_digit c cs hdg, concatTexts_cons_data,
          ih _ (Nat.le_trans (List.dropWhile_suffix _).length_le hcs)]
        rw [List.filter_cons_of_pos (keep_of_isdigit hdg),
          filter_takeWhile_dropWhile _ isdigit cs (fun x hx => keep_of_isdigit hx)]
        simp
      by_cases hal : isalpha c = true
      · rw [scan_alpha c cs hal, concatTexts_cons_data, wordToken_value,
          ih _ (Nat.le_trans (List.dropWhile_suffix _).length_le hcs)]
        rw [List.filter_cons_of_pos (keep_of_isalpha hal),
          filter_takeWhile_dropWhile _ isalnum cs (fun x hx => keep_of_isalnum hx)]
        simp
      have hsp' : isspace c = false := by simpa using hsp
      have hdg' : isdigit c = false := by simpa using hdg
      have hal' : isalpha c = false := by simpa using hal
      rw [scan_cons]
      simp only [hsp', hdg', hal', Bool.false_eq_true, if_false]
      by_cases hp : c = '+'
      · subst hp
        rw [if_pos rfl, concatTexts_cons_data, tail,
          List.filter_cons_of_pos (show isKept '+' = true by decide)]
        rfl
      simp only [hp, if_false]
      by_cases hm : c = '-'
      · subst hm
        rw [if_pos rfl, concatTexts_cons_data, tail,
          List.filter_cons_of_pos (show isKept '-' = true by decide)]
        rfl
      simp only [hm, if_false]
      by_cases hmu : c = '*'
      · subst hmu
        rw [if_pos rfl, concatTexts_cons_data, tail,
          List.filter_cons_of_pos (show isKept '*' = true by decide)]
        rfl
      simp only [hmu, if_false]
      by_cases hdv : c = '/'
      · subst hdv
        rw [if_pos rfl, concatTexts_cons_data, tail,
          List.filter_cons_of_pos (show isKept '/' = true by decide)]
        rfl
      simp only [hdv, if_false]
      by_cases hq : c = '='
      · subst hq
        rw [if_pos rfl, concatTexts_cons_data, tail,
          List.filter_cons_of_pos (show isKept '=' = true by decide)]
        rfl
      simp only [hq, if_false]
      by_cases hse : c = ';'
      · subst hse
        rw [if_pos rfl, concatTexts_cons_data, tail,
          List.filter_cons_of_pos (show isKept ';' = true by decide)]
        rfl
      simp only [hse, if_false]
      have hun : isKept c = false := by
        simp [isKept, isUnrecognized, hsp', hdg', hal', hp, hm, hmu, hdv, hq, hse]
      rw [tail, List.filter_cons_of_neg (by simp [hun])]

/-- C17: the lexer neither loses, invents nor reorders recognized characters: the texts
of the tokens of a source, concatenated in order, are the source with every white-space
character and every unrecognized character removed. -/
theorem tokenize_preserves_text (source : String) :
    ∃ tokens, tokenize source = some tokens ∧
      concatTexts tokens = recognizedText source := by
  refine ⟨_, tokenize_eq_scan source, ?_⟩
  have h : (concatTexts (scan source.data ++ [⟨TokenType.END, ""⟩])).data =
      (recognizedText source).data := by
    rw [concatTexts_append_data, scan_texts source.data.length source.data (Nat.le_refl _)]
    simp [concatTexts, recognizedText]
  exact String.ext h

/-! ## Malformed statements -/

/-- C11, the code at the failing inputs: on `"int x = ;"` the declaration that `parse`
returns holds the absent node as its expression, and on `"int x = 1 + ;"` and
`"int x = + 1;"` it holds a `BinaryOperation` node with an absent child, so the trees do
not satisfy the data model; the tree of `"int a = 1 + 2 * 3;"` does. -/
theorem parse_breaks_data_model :
    compile "int x = ;" =
      some [ASTNode.DeclarationNode "int"
        (ASTNode.AssignmentNode (ASTNode.IdentifierNode "x") ASTNode.nullptr)] ∧
    compile "int x = 1 + ;" =
      some [ASTNode.DeclarationNode "int"
        (ASTNode.AssignmentNode (ASTNode.IdentifierNode "x")
          (ASTNode.BinaryOperationNode "+" (ASTNode.NumberNode "1") ASTNode.nullptr))] ∧
    compile "int x = + 1;" =
      some [ASTNode.DeclarationNode "int"
        (ASTNode.AssignmentNode (ASTNode.IdentifierNode "x")
          (ASTNode.BinaryOperationNode "+" ASTNode.nullptr (ASTNode.NumberNode "1")))] ∧
    (compile "int x = ;").map (List.all · ASTNode.satisfiesDataModel) = some false ∧
    (compile "int x = 1 + ;").map (List.all · ASTNode.satisfiesDataModel) = some false ∧
    (compile "int x = + 1;").map (List.all · ASTNode.satisfiesDataModel) = some false ∧
    (compile "int a = 1 + 2 * 3;").map (List.all · ASTNode.satisfiesDataModel) =
      some true := by
  decide

/-- C12, the failing inputs: a statement without its `INT` token, or without an operator
between two factors, stops the loop of `parse` before the well-formed statement
`int y = 2;` that follows, so the declaration of `y` is not returned. -/
theorem malformed_statement_aborts :
    parse ([⟨TokenType.INT, "int"⟩, ⟨TokenType.IDENTIFIER, "y"⟩, ⟨TokenType.ASSIGN, "="⟩,
        ⟨TokenType.NUMBER, "2"⟩, ⟨TokenType.SEMICOLON, ";"⟩] ++ [⟨TokenType.END, ""⟩]) =
      some [ASTNode.DeclarationNode "int"
        (ASTNode.AssignmentNode (ASTNode.IdentifierNode "y") (ASTNode.NumberNode "2"))] ∧
    parse ([⟨TokenType.IDENTIFIER, "x"⟩, ⟨TokenType.ASSIGN, "="⟩, ⟨TokenType.NUMBER, "1"⟩,
        ⟨TokenType.SEMICOLON, ";"⟩] ++
      [⟨TokenType.INT, "int"⟩, ⟨TokenType.IDENTIFIER, "y"⟩, ⟨TokenType.ASSIGN, "="⟩,
        ⟨TokenType.NUMBER, "2"⟩, ⟨TokenType.SEMICOLON, ";"⟩] ++ [⟨TokenType.END, ""⟩]) =
      some [] ∧
    parse ([⟨TokenType.INT, "int"⟩, ⟨TokenType.IDENTIFIER, "x"⟩, ⟨TokenType.ASSIGN, "="⟩,
        ⟨TokenType.NUMBER, "1"⟩, ⟨TokenType.NUMBER, "3"⟩, ⟨TokenType.SEMICOLON, ";"⟩] ++
      [⟨TokenType.INT, "int"⟩, ⟨TokenType.IDENTIFIER, "y"⟩, ⟨TokenType.ASSIGN, "="⟩,
        ⟨TokenType.NUMBER, "2"⟩, ⟨TokenType.SEMICOLON, ";"⟩] ++ [⟨TokenType.END, ""⟩]) =
      some [ASTNode.DeclarationNode "int"
        (ASTNode.AssignmentNode (ASTNode.IdentifierNode "x") (ASTNode.NumberNode "1"))] ∧
    ¬ ∃ statements,
      parse ([⟨TokenType.IDENTIFIER, "x"⟩, ⟨TokenType.ASSIGN, "="⟩, ⟨TokenType.NUMBER, "1"⟩,
          ⟨TokenType.SEMICOLON, ";"⟩] ++
        [⟨TokenType.INT, "int"⟩, ⟨TokenType.IDENTIFIER, "y"⟩, ⟨TokenType.ASSIGN, "="⟩,
          ⟨TokenType.NUMBER, "2"⟩, ⟨TokenType.SEMICOLON, ";"⟩] ++ [⟨TokenType.END, ""⟩]) =
        some statements ∧
      statements.getLast? = some (ASTNode.DeclarationNode "int"
        (ASTNode.AssignmentNode (ASTNode.IdentifierNode "y") (ASTNode.NumberNode "2"))) := by
  refine ⟨by decide, by decide, by decide, ?_⟩
  rintro ⟨statements, h1, h2⟩
  have h0 : parse ([⟨TokenType.IDENTIFIER, "x"⟩, ⟨TokenType.ASSIGN, "="⟩,
      ⟨TokenType.NUMBER, "1"⟩, ⟨TokenType.SEMICOLON, ";"⟩] ++
      [⟨TokenType.INT, "int"⟩, ⟨TokenType.IDENTIFIER, "y"⟩, ⟨TokenType.ASSIGN, "="⟩,
        ⟨TokenType.NUMBER, "2"⟩, ⟨TokenType.SEMICOLON, ";"⟩] ++ [⟨TokenType.END, ""⟩]) =
      some [] := by decide
  rw [h0] at h1
  cases h1
  simp at h2

/-- The loop of `parse` on one well-formed declaration block followed by `END`, from any
cursor. -/
theorem parseLoop_single_block (d : DeclarationBlock) (e : Token)
    (hd : d.wellFormed = true) (he : e.type = TokenType.END)
    (tokens : List Token) (p fuel : Nat) (statements : List ASTNode)
    (h : tokens.drop p = d.tokens ++ [e]) (hf : (d.tokens ++ [e]).length < fuel) :
    parseLoop tokens fuel p statements =
      some (statements ++ [d.node], p + (blocksTokens [d]).length) := by
  have hb : tokens.drop p = blocksTokens [d] ++ e :: [] := by
    simpa [blocksTokens] using h
  have hlen : [d].length < fuel := by
    simp only [List.length_append, List.length_cons, List.length_nil] at hf
    simp only [List.length_cons, List.length_nil]
    omega
  rw [parseLoop_blocks tokens e [] he [d] fuel p statements hb
    (fun b hb' => by
      have : b = d := by simpa using hb'
      rw [this]
      exact hd) hlen]
  rfl

/-- C12 as amended: a declaration block that lacks its `IDENTIFIER`, its `ASSIGN` or its
`SEMICOLON` does not stop the parsing of the well-formed block `D` that follows: `parse`
returns the declaration of the malformed block and then, as its last element, the
declaration that it returns for `D` alone. -/
theorem malformed_statement_recovery (m d : DeclarationBlock) (e : Token)
    (hm : m.wellFormed = true) (hd : d.wellFormed = true) (he : e.type = TokenType.END) :
    parse (d.tokens ++ [e]) = some [d.node] ∧
    parse (m.withoutName ++ d.tokens ++ [e]) = some [m.nodeWithoutName, d.node] ∧
    parse (m.withoutAssign ++ d.tokens ++ [e]) = some [m.node, d.node] ∧
    parse (m.withoutSemicolon ++ d.tokens ++ [e]) = some [m.node, d.node] := by
  have hk : m.keyword.type = TokenType.INT := by
    simp only [DeclarationBlock.wellFormed, Bool.and_eq_true, beq_iff_eq] at hm
    exact hm.1.1.1.1.1
  have hdk : d.keyword.type = TokenType.INT := by
    simp only [DeclarationBlock.wellFormed, Bool.and_eq_true, beq_iff_eq] at hd
    exact hd.1.1.1.1.1
  have hrest := parseLoop_single_block d e hd he
  refine ⟨?_, ?_, ?_, ?_⟩
  · rw [parse, hrest _ 0 _ [] rfl (Nat.lt_succ_self _)]
    rfl
  · rw [List.append_assoc]
    exact parse_after_declaration m.withoutName (d.tokens ++ [e]) m.keyword _ rfl hk
      (parseDeclaration_withoutName
        (show (m.withoutName ++ (d.tokens ++ [e])).drop 0 =
          m.withoutName ++ (d.tokens ++ [e]) from rfl) hm)
      rfl hrest
  · rw [List.append_assoc]
    exact parse_after_declaration m.withoutAssign (d.tokens ++ [e]) m.keyword _ rfl hk
      (parseDeclaration_withoutAssign
        (show (m.withoutAssign ++ (d.tokens ++ [e])).drop 0 =
          m.withoutAssign ++ (d.tokens ++ [e]) from rfl) hm)
      rfl hrest
  · rw [List.append_assoc]
    exact parse_after_declaration m.withoutSemicolon (d.tokens ++ [e]) m.keyword _ rfl hk
      (parseDeclaration_withoutSemicolon
        (show (m.withoutSemicolon ++ (d.tokens ++ [e])).drop 0 =
          m.withoutSemicolon ++ d.keyword :: (d.name :: d.assign :: d.first ::
            (operands d.rest ++ [d.semicolon]) ++ [e]) from rfl) hm (Or.inl hdk))
      rfl hrest

/-- The witness of C12 as amended: the block `int x = 1 ;` with one token missing, before
the block `int y = 2 ;`. -/
theorem malformed_statement_recovery_witness :
    parse ([⟨TokenType.INT, "int"⟩, ⟨TokenType.IDENTIFIER, "y"⟩, ⟨TokenType.ASSIGN, "="⟩,
        ⟨TokenType.NUMBER, "2"⟩, ⟨TokenType.SEMICOLON, ";"⟩] ++ [⟨TokenType.END, ""⟩]) =
      some [ASTNode.DeclarationNode "int"
        (ASTNode.AssignmentNode (ASTNode.IdentifierNode "y") (ASTNode.NumberNode "2"))] ∧
    parse ([⟨TokenType.INT, "int"⟩, ⟨TokenType.ASSIGN, "="⟩, ⟨TokenType.NUMBER, "1"⟩,
        ⟨TokenType.SEMICOLON, ";"⟩] ++
      [⟨TokenType.INT, "int"⟩, ⟨TokenType.IDENTIFIER, "y"⟩, ⟨TokenType.ASSIGN, "="⟩,
        ⟨TokenType.NUMBER, "2"⟩, ⟨TokenType.SEMICOLON, ";"⟩] ++ [⟨TokenType.END, ""⟩]) =
      some [ASTNode.DeclarationNode "int"
          (ASTNode.AssignmentNode (ASTNode.IdentifierNode "") (ASTNode.NumberNode "1")),
        ASTNode.DeclarationNode "int"
          (ASTNode.AssignmentNode (ASTNode.IdentifierNode "y") (ASTNode.NumberNode "2"))] ∧
    parse ([⟨TokenType.INT, "int"⟩, ⟨TokenType.IDENTIFIER, "x"⟩, ⟨TokenType.NUMBER, "1"⟩,
        ⟨TokenType.SEMICOLON, ";"⟩] ++
      [⟨TokenType.INT, "int"⟩, ⟨TokenType.IDENTIFIER, "y"⟩, ⟨TokenType.ASSIGN, "="⟩,
        ⟨TokenType.NUMBER, "2"⟩, ⟨TokenType.SEMICOLON, ";"⟩] ++ [⟨TokenType.END, ""⟩]) =
      some [ASTNode.DeclarationNode "int"
          (ASTNode.AssignmentNode (ASTNode.IdentifierNode "x") (ASTNode.NumberNode "1")),
        ASTNode.DeclarationNode "int"
          (ASTNode.AssignmentNode (ASTNode.IdentifierNode "y") (ASTNode.NumberNode "2"))] ∧
    parse ([⟨TokenType.INT, "int"⟩, ⟨TokenType.IDENTIFIER, "x"⟩, ⟨TokenType.ASSIGN, "="⟩,
        ⟨TokenType.NUMBER, "1"⟩] ++
      [⟨TokenType.INT, "int"⟩, ⟨TokenType.IDENTIFIER, "y"⟩, ⟨TokenType.ASSIGN, "="⟩,
        ⟨TokenType.NUMBER, "2"⟩, ⟨TokenType.SEMICOLON, ";"⟩] ++ [⟨TokenType.END, ""⟩]) =
      some [ASTNode.DeclarationNode "int"
          (ASTNode.AssignmentNode (ASTNode.IdentifierNode "x") (ASTNode.NumberNode "1")),
        ASTNode.DeclarationNode "int"
          (ASTNode.AssignmentNode (ASTNode.IdentifierNode "y") (ASTNode.NumberNode "2"))] :=
  malformed_statement_recovery
    ⟨⟨TokenType.INT, "int"⟩, ⟨TokenType.IDENTIFIER, "x"⟩, ⟨TokenType.ASSIGN, "="⟩,
      ⟨TokenType.NUMBER, "1"⟩, [], ⟨TokenType.SEMICOLON, ";"⟩⟩
    ⟨⟨TokenType.INT, "int"⟩, ⟨TokenType.IDENTIFIER, "y"⟩, ⟨TokenType.ASSIGN, "="⟩,
      ⟨TokenType.NUMBER, "2"⟩, [], ⟨TokenType.SEMICOLON, ";"⟩⟩
    ⟨TokenType.END, ""⟩ (by decide) (by decide) (by decide)

end MiniCompiler
